import Mathlib

set_option maxRecDepth 10000

/-!
Verification of the webb-tools/cli note / mixer / store subsystem.

Strings from the Rust source are modelled as lists of characters
(`Str := List Char`), bytes as natural numbers below 256, and fallible
Rust functions as `Except` / `Option` values.  A Rust function that can
panic (`unwrap`) is modelled with a dedicated `panicked` outcome.
-/

/-- Rust `&str` / `String`, modelled as a list of characters. -/
abbrev Str := List Char

/-- Rust `s.split(c).collect::<Vec<_>>()`: split at every occurrence of a
separator character; `""` yields `[""]`, and separators at the ends yield
empty pieces, exactly as in Rust. -/
def splitOnChar (c : Char) : List Char → List (List Char)
  | [] => [[]]
  | x :: rest =>
    if x = c then [] :: splitOnChar c rest
    else
      match splitOnChar c rest with
      | [] => [[x]]
      | s :: ss => (x :: s) :: ss

/-- Rust `parts.join(sep)` for a one-character separator. -/
def joinWith (c : Char) : List (List Char) → List Char
  | [] => []
  | [p] => p
  | p :: ps => p ++ c :: joinWith c ps

/-- Rust `note_val.replace("0x", "")`: delete every (leftmost,
non-overlapping) occurrence of the two-character substring `0x`. -/
def remove0x : List Char → List Char
  | [] => []
  | [c] => [c]
  | a :: b :: rest =>
    if a = '0' ∧ b = 'x' then remove0x rest
    else a :: remove0x (b :: rest)

/-- The character for a decimal digit value (`0 ↦ '0'`, …, `9 ↦ '9'`). -/
def digitChar (d : ℕ) : Char := Char.ofNat (48 + d)

/-- Digits of `n` in base 10, most significant first, with explicit fuel
so that the kernel can evaluate it (`fuel ≥ n` is always enough). -/
def natToCharsAux : ℕ → ℕ → List Char
  | 0, _ => []
  | fuel + 1, n =>
    if n = 0 then [] else natToCharsAux fuel (n / 10) ++ [digitChar (n % 10)]

/-- Rust `u32::to_string()` (and friends): decimal representation of a
natural number, most significant digit first. -/
def natToChars (n : ℕ) : Str :=
  if n = 0 then ['0'] else natToCharsAux n n

/-- Rust `str::parse::<uN>()` for an unsigned integer type with maximum
value `max`: an optional leading `+`, then one or more ASCII digits, and
the value must not overflow. -/
def parseUnsigned (max : ℕ) (s : Str) : Option ℕ :=
  let t := if s.head? = some '+' then s.tail else s
  if t = [] then none
  else if t.all Char.isDigit then
    let v := t.foldl (fun a c => a * 10 + (c.toNat - 48)) 0
    if v ≤ max then some v else none
  else none

/-- Rust `u8::from_str`. -/
def parseU8 (s : Str) : Option ℕ := parseUnsigned 255 s

/-- Rust `u32::from_str`. -/
def parseU32 (s : Str) : Option ℕ := parseUnsigned 4294967295 s

/-- Rust `usize::from_str` (64-bit platform). -/
def parseUsize (s : Str) : Option ℕ := parseUnsigned 18446744073709551615 s

/-- Value of one hexadecimal digit character, upper or lower case. -/
def hexDigitVal (c : Char) : Option ℕ :=
  if 48 ≤ c.toNat ∧ c.toNat ≤ 57 then some (c.toNat - 48)
  else if 97 ≤ c.toNat ∧ c.toNat ≤ 102 then some (c.toNat - 87)
  else if 65 ≤ c.toNat ∧ c.toNat ≤ 70 then some (c.toNat - 55)
  else none

/-- Rust `hex::decode`: succeeds on an even number of hex digit
characters, returning the decoded bytes; fails otherwise. -/
def hexDecodeList : Str → Option (List ℕ)
  | [] => some []
  | [_] => none
  | a :: b :: rest =>
    (hexDigitVal a).bind fun hi =>
      (hexDigitVal b).bind fun lo =>
        (hexDecodeList rest).map fun r => (16 * hi + lo) :: r

/-- The character for a hex digit value in lower case. -/
def hexDigitChar (d : ℕ) : Char :=
  if d < 10 then digitChar d else Char.ofNat (87 + d)

/-- Rust `hex::encode`: two lowercase hex digits per byte. -/
def hexEncodeChars (bytes : List ℕ) : Str :=
  bytes.foldr (fun b acc => hexDigitChar (b / 16) :: hexDigitChar (b % 16) :: acc) []

/-! ## The note model (`src/note.rs`) -/

/-- The `enum NotePrefix` from `src/note.rs` (named `NotePfx` here). -/
inductive NotePfx where
  | mixer
  | bridge
  | anchor
  | vanchor
  deriving DecidableEq, Repr

/-- The `enum NoteVersion` from `src/note.rs`. -/
inductive NoteVersion where
  | v1
  deriving DecidableEq, Repr

/-- The `enum Backend` from `src/note.rs`. -/
inductive Backend where
  | arkworks
  | circom
  deriving DecidableEq, Repr

/-- The `enum Curve` from `src/note.rs`. -/
inductive Curve where
  | bls381
  | bn254
  deriving DecidableEq, Repr

/-- The `enum HashFunction` from `src/note.rs`. -/
inductive HashFunction where
  | poseidon
  | mimcTornado
  deriving DecidableEq, Repr

/-- The variants of `enum Error` from `src/error.rs` reachable from the
note codec. -/
inductive Err where
  | unsupportedNoteVersion (v : Str)
  | unsupportedNoteBackend (v : Str)
  | unsupportedNoteCurve (v : Str)
  | unsupportedNoteHashFunction (v : Str)
  | unsupportedNotePfx (v : Str)
  | invalidNoteFormat
  | invalidChainId
  | invalidNoteSecrets
  | hexErr
  deriving DecidableEq, Repr

/-- The outcome of a Rust function that may return `Ok`, return `Err`, or
panic (via `unwrap`). -/
inductive PResult (α : Type) where
  | ok (a : α)
  | err (e : Err)
  | panicked
  deriving DecidableEq, Repr

/-- Model of `impl fmt::Display for NotePrefix`. -/
def NotePfx.toStr : NotePfx → Str
  | .mixer => "webb.mixer".data
  | .bridge => "webb.bridge".data
  | .anchor => "webb.anchor".data
  | .vanchor => "webb.vanchor".data

/-- Model of `impl FromStr for NotePrefix`. -/
def NotePfx.fromStr (s : Str) : Except Err NotePfx :=
  if s = "webb.mixer".data then .ok .mixer
  else if s = "webb.bridge".data then .ok .bridge
  else if s = "webb.anchor".data then .ok .anchor
  else if s = "webb.vanchor".data then .ok .vanchor
  else .error (.unsupportedNotePfx s)

/-- Model of `impl fmt::Display for NoteVersion`. -/
def NoteVersion.toStr : NoteVersion → Str
  | .v1 => "v1".data

/-- Model of `impl FromStr for NoteVersion`. -/
def NoteVersion.fromStr (s : Str) : Except Err NoteVersion :=
  if s = "v1".data then .ok .v1
  else .error (.unsupportedNoteVersion s)

/-- Model of `impl fmt::Display for Backend`. -/
def Backend.toStr : Backend → Str
  | .arkworks => "Arkworks".data
  | .circom => "Circom".data

/-- Model of `impl FromStr for Backend`. -/
def Backend.fromStr (s : Str) : Except Err Backend :=
  if s = "Arkworks".data then .ok .arkworks
  else if s = "Circom".data then .ok .circom
  else .error (.unsupportedNoteBackend s)

/-- Model of `impl fmt::Display for Curve`. -/
def Curve.toStr : Curve → Str
  | .bls381 => "Bls381".data
  | .bn254 => "Bn254".data

/-- Model of `impl FromStr for Curve`. -/
def Curve.fromStr (s : Str) : Except Err Curve :=
  if s = "Bls381".data then .ok .bls381
  else if s = "Bn254".data then .ok .bn254
  else .error (.unsupportedNoteCurve s)

/-- Model of `impl fmt::Display for HashFunction`. -/
def HashFunction.toStr : HashFunction → Str
  | .poseidon => "Poseidon".data
  | .mimcTornado => "MiMCTornado".data

/-- Model of `impl FromStr for HashFunction`. -/
def HashFunction.fromStr (s : Str) : Except Err HashFunction :=
  if s = "Poseidon".data then .ok .poseidon
  else if s = "MiMCTornado".data then .ok .mimcTornado
  else .error (.unsupportedNoteHashFunction s)

/-- The `struct Note` from `src/note.rs`.  The Rust field `prefix` is named
`pfx` here; `secret: [u8; 64]` is a list of bytes (valid values have
length 64 with entries below 256, which the Rust types enforce). -/
structure Note where
  pfx : NotePfx
  version : NoteVersion
  targetChainId : ℕ
  sourceChainId : ℕ
  backend : Backend
  hashFunction : HashFunction
  curve : Curve
  exponentiation : ℕ
  width : ℕ
  secret : List ℕ
  tokenSymbol : Str
  amount : Str
  denomination : ℕ
  deriving DecidableEq, Repr

/-- Model of `impl fmt::Display for Note`: the 13 colon-joined fields, the secret
hex-encoded without prefix. -/
def Note.toChars (n : Note) : Str :=
  joinWith ':' [
    n.pfx.toStr,
    n.version.toStr,
    natToChars n.targetChainId,
    natToChars n.sourceChainId,
    n.backend.toStr,
    n.curve.toStr,
    n.hashFunction.toStr,
    n.tokenSymbol,
    natToChars n.denomination,
    n.amount,
    natToChars n.exponentiation,
    natToChars n.width,
    hexEncodeChars n.secret]

/-- The body of `impl FromStr for Note` after the `split(':')` /
field-count check: 13 fields are consumed in source order.  The
`denomination`, `exponentiation` and `width` fields are parsed with
`.parse().unwrap()` in the source, so a malformed value there panics
(`PResult.panicked`) instead of returning an error. -/
def Note.fromParts : List Str → PResult Note
  | [p0, p1, p2, p3, p4, p5, p6, p7, p8, p9, p10, p11, p12] =>
    match NotePfx.fromStr p0 with
    | .error e => .err e
    | .ok pfx =>
    match NoteVersion.fromStr p1 with
    | .error e => .err e
    | .ok version =>
    match parseU32 p2 with
    | none => .err .invalidChainId
    | some targetChainId =>
    match parseU32 p3 with
    | none => .err .invalidChainId
    | some sourceChainId =>
    match Backend.fromStr p4 with
    | .error e => .err e
    | .ok backend =>
    match Curve.fromStr p5 with
    | .error e => .err e
    | .ok curve =>
    match HashFunction.fromStr p6 with
    | .error e => .err e
    | .ok hashFunction =>
    let tokenSymbol := p7
    match parseU8 p8 with
    | none => .panicked
    | some denomination =>
    let amount := p9
    match parseU8 p10 with
    | none => .panicked
    | some exponentiation =>
    match parseUsize p11 with
    | none => .panicked
    | some width =>
    match hexDecodeList (remove0x p12) with
    | none => .err .hexErr
    | some bytes =>
      if bytes.length = 64 then
        .ok {
          pfx, version, targetChainId, sourceChainId, backend, curve,
          hashFunction, exponentiation, width, secret := bytes,
          tokenSymbol, amount, denomination }
      else .err .invalidNoteSecrets
  | _ => .err .invalidNoteFormat

/-- Model of `impl FromStr for Note` from `src/note.rs`. -/
def Note.fromChars (s : Str) : PResult Note :=
  Note.fromParts (splitOnChar ':' s)

/-- A well-formed (valid) note: the free-text fields contain no `:`
delimiter, the numeric fields fit their Rust integer types, and the
secret is exactly 64 bytes — all of which the Rust types and the note
data model guarantee for notes the program builds. -/
def Note.wf (n : Note) : Prop :=
  ':' ∉ n.tokenSymbol ∧ ':' ∉ n.amount ∧
  n.targetChainId < 4294967296 ∧ n.sourceChainId < 4294967296 ∧
  n.exponentiation < 256 ∧ n.width < 18446744073709551616 ∧
  n.denomination < 256 ∧
  n.secret.length = 64 ∧ ∀ b ∈ n.secret, b < 256

instance (n : Note) : Decidable n.wf := by
  unfold Note.wf
  infer_instance

/-- A concrete valid note used to instantiate theorems with hypotheses. -/
def sampleNote : Note := {
  pfx := .mixer, version := .v1, targetChainId := 1, sourceChainId := 2,
  backend := .circom, hashFunction := .poseidon, curve := .bn254,
  exponentiation := 5, width := 5, secret := List.replicate 64 171,
  tokenSymbol := "TEST".data, amount := "1".data, denomination := 1 }

/-- A fixed, valid 12-field head for exercising the 13th (secret) field
of the note format. -/
def secretTestHead : Str :=
  "webb.mixer:v1:1:2:Arkworks:Bn254:Poseidon:EDG:1:1:5:5:".data

/-- The acceptance condition the claim states for the secret field:
exactly 128 hexadecimal characters, optionally preceded by a single `0x`
prefix that is stripped.  (This definition follows the claim's words, to
be compared against what the code accepts.) -/
def claimedSecretFieldAccept (f : Str) : Bool :=
  (f.length = 128 && f.all fun c => (hexDigitVal c).isSome) ||
  (match f with
   | '0' :: 'x' :: r => r.length = 128 && r.all fun c => (hexDigitVal c).isSome
   | _ => false)

/-- A secret field that is not 128 hex characters with an optional `0x`
prefix: the `0x` sits in the middle of the field. -/
def oddSecretField : Str :=
  List.replicate 64 'a' ++ '0' :: 'x' :: List.replicate 64 'a'

/-! ## The mixer accumulator (`src/mixer.rs`)

The `FixedDepositTree` that `Mixer` wraps lives in the external
`bulletproofs_gadgets` crate, outside this repository's sources, so the
tree itself is modelled from the spec: a fixed-depth (32) sparse Merkle
tree over an abstract two-to-one hash, with zero-filled defaults for
unpopulated positions, whose root is always the Merkle root of exactly
the currently-inserted leaf sequence.  Scalars (`ScalarData`, 32-byte
values) are modelled as natural numbers. -/

/-- Modelled from the spec: one level of Merkle hashing.  Leaves are
paired left-to-right; a trailing odd leaf is paired with the zero-filled
default `z` of the current level. -/
def pairUpLvl (hash : ℕ → ℕ → ℕ) (z : ℕ) : List ℕ → List ℕ
  | [] => []
  | [x] => [hash x z]
  | x :: y :: rest => hash x y :: pairUpLvl hash z rest

/-- Modelled from the spec: the Merkle root of the populated prefix of a
depth-`d` sparse tree whose empty positions default to `z` at the current
level (`z = 0` for the leaf level, hashed up with the same hash as the
populated nodes). -/
def rootAux (hash : ℕ → ℕ → ℕ) : ℕ → ℕ → List ℕ → ℕ
  | 0, z, l => l.headD z
  | d + 1, z, l => rootAux hash d (hash z z) (pairUpLvl hash z l)

/-- Modelled from the spec: the root of a depth-`d` sparse Merkle tree
holding the leaf sequence `l` (zero-filled defaults elsewhere). -/
def treeRoot (hash : ℕ → ℕ → ℕ) (d : ℕ) (l : List ℕ) : ℕ :=
  rootAux hash d 0 l

/-- The `enum TokenSymbol` from `src/mixer.rs`. -/
inductive MixTokenSymbol where
  | edg
  deriving DecidableEq, Repr

/-- The `struct Note` from `src/mixer.rs` (the dash-delimited mixer note;
named `MixNote` to distinguish it from `src/note.rs`).  `ScalarData`
fields are modelled as naturals; the Rust field `prefix` is `pfx`. -/
structure MixNote where
  pfx : Str
  version : NoteVersion
  tokenSymbol : MixTokenSymbol
  mixerId : ℕ
  blockNumber : Option ℕ
  r : ℕ
  nullifier : ℕ
  deriving DecidableEq, Repr

/-- The `struct ZkProof` from `src/mixer.rs`, commitments and scalars
modelled as naturals, proof bytes as a byte list. -/
structure ZkProof where
  comms : List ℕ
  nullifierHash : ℕ
  proofBytes : List ℕ
  leafIndexCommitments : List ℕ
  proofCommitments : List ℕ
  deriving DecidableEq, Repr

/-- The `struct Mixer` from `src/mixer.rs`: the tree state is its inserted
leaf sequence plus the secrets saved by `add_secrets`
(`leaf ↦ (r, nullifier, nullifier_hash)`, as stored by the external
tree's secret map). -/
structure Mixer where
  id : ℕ
  leaves : List ℕ
  saved : List (ℕ × ℕ × ℕ × ℕ)
  deriving DecidableEq, Repr

/-- Model of `Mixer::new`: a fresh, empty depth-32 tree. -/
def Mixer.new (id : ℕ) : Mixer := ⟨id, [], []⟩

/-- Model of `Mixer::add_leaves`: append the batch to the inserted leaf sequence
(the external ledger's order is preserved). -/
def Mixer.addLeaves (m : Mixer) (ls : List ℕ) : Mixer :=
  { m with leaves := m.leaves ++ ls }

/-- Model of `Mixer::root`: the Merkle root of exactly the currently-inserted
leaf sequence at depth 32, for the configured hash. -/
def Mixer.root (hash : ℕ → ℕ → ℕ) (m : Mixer) : ℕ :=
  treeRoot hash 32 m.leaves

/-- Model of `Mixer::save_note`: derive `(leaf, nullifier_hash)` from the note's
`(r, nullifier)` pair via the external `leaf_data_from_bytes` (modelled
from the spec as an abstract deterministic derivation `dl`), store the
secrets for the leaf, and return the leaf. -/
def Mixer.saveNote (dl : ℕ → ℕ → ℕ × ℕ) (m : Mixer) (note : MixNote) :
    Mixer × ℕ :=
  let leaf := (dl note.r note.nullifier).1
  let nh := (dl note.r note.nullifier).2
  ({ m with saved := (leaf, note.r, note.nullifier, nh) :: m.saved }, leaf)

/-- The external tree's secret lookup (`get_secrets`), by leaf value. -/
def lookupSaved : List (ℕ × ℕ × ℕ × ℕ) → ℕ → Option (ℕ × ℕ × ℕ)
  | [], _ => none
  | (l, r, nu, nh) :: rest, leaf =>
    if l = leaf then some (r, nu, nh) else lookupSaved rest leaf

/-- Model of `Mixer::generate_proof`: modelled from the spec — `prove_zk` is a
randomized proof (the transcript randomness is the explicit `rng`
argument here) whose returned nullifier hash is the one stored with the
leaf's secrets, and whose serialized proof bytes are an opaque non-empty
blob. -/
def Mixer.generateProof (m : Mixer) (root leaf rng : ℕ) : ZkProof :=
  let nh := match lookupSaved m.saved leaf with
    | some (_, _, nh) => nh
    | none => 0
  { comms := [rng, root],
    nullifierHash := nh,
    proofBytes := 1 :: rng :: root :: leaf :: [],
    leafIndexCommitments := [rng],
    proofCommitments := [rng] }

/-- Two-step structural induction on lists of naturals, matching the
pairing recursions below. -/
def twoStepRec {motive : List ℕ → Prop} (h0 : motive []) (h1 : ∀ x, motive [x])
    (h2 : ∀ x y rest, motive rest → motive (x :: y :: rest)) : ∀ l, motive l
  | [] => h0
  | [x] => h1 x
  | x :: y :: rest => h2 x y rest (twoStepRec h0 h1 h2 rest)

/-- One Merkle level over a fully padded (even-length) level. -/
def pairUpFull (hash : ℕ → ℕ → ℕ) : List ℕ → List ℕ
  | [] => []
  | [_] => []
  | x :: y :: rest => hash x y :: pairUpFull hash rest

/-- Pad a level to its full width `n` with the default `z`. -/
def padZ (z n : ℕ) (l : List ℕ) : List ℕ :=
  l ++ List.replicate (n - l.length) z

/-! ## The encrypted datastore (`src/database.rs`) and records (`src/raw.rs`)

The sled key-value store is modelled as an association list from string
keys to stored values.  Protobuf-encoded plaintext records are modelled
as the records themselves (decoding a value of the wrong shape fails);
XChaCha20Poly1305 authenticated encryption is modelled symbolically: a
ciphertext remembers its nonce, key and message, and decryption succeeds
exactly for the matching key (authentication failure otherwise), as the
spec's keyed encrypt/decrypt black box prescribes. -/

/-- The `struct NoteRaw` from `src/raw.rs` (the Rust field `alias` is
`aliasName` here). -/
structure NoteRaw where
  uuid : Str
  aliasName : Str
  used : Bool
  value : Str
  deriving DecidableEq, Repr

/-- The `struct AccountRaw` from `src/raw.rs`. -/
structure AccountRaw where
  uuid : Str
  aliasName : Str
  address : Str
  isDefault : Bool
  deriving DecidableEq, Repr

/-- A decoded plaintext record: a note record, an account record, or one
of the two id-index records (`NotesIds` / `AccountsIds`). -/
inductive PVal where
  | note (r : NoteRaw)
  | account (r : AccountRaw)
  | noteIds (ids : List Str)
  | accountIds (ids : List Str)
  deriving DecidableEq, Repr

/-- A value stored in the sled database: protobuf-encoded plaintext
bytes, or `nonce ‖ ciphertext` bytes produced by the authenticated
cipher (modelled symbolically by its nonce, key and message). -/
inductive DBVal where
  | plain (v : PVal)
  | cipher (nonce : List ℕ) (key : List ℕ) (msg : List ℕ)
  deriving DecidableEq, Repr

/-- Association-list lookup, first binding wins (sled get). -/
def lookupKV : List (Str × DBVal) → Str → Option DBVal
  | [], _ => none
  | (k, v) :: rest, key => if k = key then some v else lookupKV rest key

/-- Remove every binding of a key. -/
def eraseKey (key : Str) : List (Str × DBVal) → List (Str × DBVal)
  | [] => []
  | (k, v) :: rest =>
    if k = key then eraseKey key rest else (k, v) :: eraseKey key rest

/-- Insert-or-replace a binding (sled insert). -/
def insertKV (key : Str) (v : DBVal) (s : List (Str × DBVal)) :
    List (Str × DBVal) :=
  (key, v) :: eraseKey key s

/-- Modelled from the spec: the one-way key-derivation hash
(`utils::sha256`) applied to the user passphrase; collision resistance is
idealized as injectivity over passphrase bytes. -/
def sha256 (p : List ℕ) : List ℕ := 0 :: p

/-- The `struct SledDatastore` from `src/database.rs`: the sled map plus the
optional user secret (passphrase bytes). -/
structure SledDatastore where
  sled : List (Str × DBVal)
  secret : Option (List ℕ)
  deriving DecidableEq, Repr

/-- Model of `SledDatastore::read`: requires the secret, derives the key with the
one-way hash, splits the stored bytes into nonce and ciphertext and
decrypts; a missing key is `Ok(None)`; decryption failure (wrong
passphrase, non-ciphertext bytes) is an explicit error. -/
def SledDatastore.read (ds : SledDatastore) (key : Str) :
    Except Str (Option (List ℕ)) :=
  match ds.secret with
  | none => .error "password must be provided for decryption!".data
  | some secret =>
    match lookupKV ds.sled key with
    | none => .ok none
    | some (.cipher _ k msg) =>
      if k = sha256 secret then .ok (some msg)
      else .error "datastore decrypt failed".data
    | some (.plain _) => .error "datastore decrypt failed".data

/-- Model of `SledDatastore::write`: requires the secret, encrypts the value under
the derived key with a fresh random nonce (an explicit argument here),
and stores `nonce ‖ ciphertext`, returning the previous value. -/
def SledDatastore.write (ds : SledDatastore) (key : Str) (value : List ℕ)
    (nonce : List ℕ) : Except Str (SledDatastore × Option DBVal) :=
  match ds.secret with
  | none => .error "password must be provided for encryption".data
  | some secret =>
    .ok ({ ds with
            sled := insertKV key (.cipher nonce (sha256 secret) value) ds.sled },
         lookupKV ds.sled key)

/-- Model of `SledDatastore::read_plaintext`. -/
def SledDatastore.readPlaintext (ds : SledDatastore) (key : Str) :
    Option DBVal :=
  lookupKV ds.sled key

/-- Model of `SledDatastore::write_plaintext`, returning the new store and the
previous value. -/
def SledDatastore.writePlaintext (ds : SledDatastore) (key : Str)
    (v : PVal) : SledDatastore × Option DBVal :=
  ({ ds with sled := insertKV key (.plain v) ds.sled },
   lookupKV ds.sled key)

/-- Model of `SledDatastore::remove`. -/
def SledDatastore.remove (ds : SledDatastore) (key : Str) :
    SledDatastore × Option DBVal :=
  ({ ds with sled := eraseKey key ds.sled }, lookupKV ds.sled key)

/-! ## The execution context (`src/context.rs`) -/

/-- The outcome of a context operation; `anyhow` error payloads are
collapsed, and a propagated note-parser panic is `panicked`. -/
inductive CtxResult (α : Type) where
  | ok (a : α)
  | err
  | panicked
  deriving DecidableEq, Repr

/-- The `struct ExecutionContext` (the in-memory record caches plus the
datastore; the RPC endpoint and directory handles play no role in the
store logic). -/
structure ExecutionContext where
  accounts : List AccountRaw
  notes : List NoteRaw
  db : SledDatastore
  deriving DecidableEq, Repr

/-- Model of `ExecutionContext::import_note`: zeroize the note's secret, store the
plaintext metadata record under the fresh `uuid` (the random uuid and
encryption nonce are explicit arguments), store the real secret
encrypted under `<uuid>_secret`, and append the uuid to the `notes_ids`
index.  Errors return the partially-updated state, exactly as the `?`
early returns leave the store. -/
def ExecutionContext.importNote (ctx : ExecutionContext) (aliasName : Str)
    (note : Note) (uuid : Str) (nonce : List ℕ) :
    ExecutionContext × CtxResult Str :=
  let secret := note.secret
  let zeroed := { note with secret := note.secret.map (fun _ => 0) }
  let raw : NoteRaw := { uuid := uuid, aliasName := aliasName,
                         used := false, value := Note.toChars zeroed }
  let db1 := (ctx.db.writePlaintext uuid (.note raw)).1
  match db1.write (uuid ++ "_secret".data) secret nonce with
  | .error _ => ({ ctx with db := db1 }, .err)
  | .ok (db2, _) =>
    match db2.readPlaintext "notes_ids".data with
    | some (.plain (.noteIds ids)) =>
      ({ ctx with
          db := (db2.writePlaintext "notes_ids".data
            (.noteIds (ids ++ [uuid]))).1 }, .ok uuid)
    | none =>
      ({ ctx with
          db := (db2.writePlaintext "notes_ids".data
            (.noteIds [uuid])).1 }, .ok uuid)
    | some _ => ({ ctx with db := db2 }, .err)

/-- Model of `ExecutionContext::decrypt_note`: load the metadata record, load and
decrypt the 64-byte secret, parse the stored note string and overwrite
its secret with the decrypted bytes. -/
def ExecutionContext.decryptNote (ctx : ExecutionContext) (uuid : Str) :
    CtxResult Note :=
  match ctx.db.readPlaintext uuid with
  | some (.plain (.note raw)) =>
    (match ctx.db.read (uuid ++ "_secret".data) with
     | .error _ => .err
     | .ok none => .err
     | .ok (some secretBytes) =>
       if secretBytes.length = 64 then
         match Note.fromChars raw.value with
         | .ok nt => .ok { nt with secret := secretBytes }
         | .err _ => .err
         | .panicked => .panicked
       else .err)
  | some _ => .err
  | none => .err

/-- Model of `ExecutionContext::forget_note`: remove the metadata record and the
encrypted secret; the `notes_ids` index is not touched. -/
def ExecutionContext.forgetNote (ctx : ExecutionContext) (uuid : Str) :
    ExecutionContext :=
  let db1 := (ctx.db.remove uuid).1
  let db2 := (db1.remove (uuid ++ "_secret".data)).1
  { ctx with db := db2 }

/-- Model of `ExecutionContext::mark_note_as_used`: rewrite the metadata record
with `used := true`. -/
def ExecutionContext.markNoteAsUsed (ctx : ExecutionContext) (uuid : Str) :
    ExecutionContext × CtxResult Unit :=
  match ctx.db.readPlaintext uuid with
  | some (.plain (.note raw)) =>
    ({ ctx with
        db := (ctx.db.writePlaintext uuid
          (.note { raw with used := true })).1 }, .ok ())
  | some _ => (ctx, .err)
  | none => (ctx, .err)

/-- Model of `ExecutionContext::generate_account`: store the account record under
the fresh uuid (account generation itself is external — uuid, address and
seed are explicit arguments), store the seed encrypted under
`<uuid>_seed`, and append the uuid to `account_ids`. -/
def ExecutionContext.generateAccount (ctx : ExecutionContext)
    (aliasName uuid address : Str) (seed nonce : List ℕ) :
    ExecutionContext × CtxResult Str :=
  let raw : AccountRaw := { uuid := uuid, aliasName := aliasName,
                            address := address,
                            isDefault := ctx.accounts.isEmpty }
  let db1 := (ctx.db.writePlaintext uuid (.account raw)).1
  match db1.write (uuid ++ "_seed".data) seed nonce with
  | .error _ => ({ ctx with db := db1 }, .err)
  | .ok (db2, _) =>
    match db2.readPlaintext "account_ids".data with
    | some (.plain (.accountIds ids)) =>
      ({ ctx with
          db := (db2.writePlaintext "account_ids".data
            (.accountIds (ids ++ [uuid]))).1 }, .ok address)
    | none =>
      ({ ctx with
          db := (db2.writePlaintext "account_ids".data
            (.accountIds [uuid])).1 }, .ok address)
    | some _ => ({ ctx with db := db2 }, .err)

/-- Model of `ExecutionContext::import_account`: identical store writes to
`generate_account`, with the account restored from a mnemonic instead of
freshly generated (both external). -/
def ExecutionContext.importAccount (ctx : ExecutionContext)
    (aliasName uuid address : Str) (seed nonce : List ℕ) :
    ExecutionContext × CtxResult Str :=
  ctx.generateAccount aliasName uuid address seed nonce

/-- Model of `ExecutionContext::generate_note`: build a note with the fixed
Bn254/5/5 circuit configuration (the generated secret is an explicit
argument) and import it. -/
def ExecutionContext.generateNote (ctx : ExecutionContext)
    (aliasName assetName : Str) (depositSize denomination chainId : ℕ)
    (secret : List ℕ) (uuid : Str) (nonce : List ℕ) :
    ExecutionContext × CtxResult Unit :=
  let v : Note := { pfx := .mixer, version := .v1,
                    targetChainId := chainId, sourceChainId := chainId,
                    backend := .circom, hashFunction := .poseidon,
                    curve := .bn254, exponentiation := 5, width := 5,
                    secret := secret, tokenSymbol := assetName,
                    amount := natToChars depositSize,
                    denomination := denomination }
  let r := ctx.importNote aliasName v uuid nonce
  (r.1, match r.2 with
        | .ok _ => .ok ()
        | .err => .err
        | .panicked => .panicked)

/-- The record-collection loop of `ExecutionContext::load_notes`: a
missing record is skipped (`continue`), a record that fails to decode as
a note is an error. -/
def loadNotesAux (db : SledDatastore) : List Str → CtxResult (List NoteRaw)
  | [] => .ok []
  | id :: rest =>
    match db.readPlaintext id with
    | none => loadNotesAux db rest
    | some (.plain (.note r)) =>
      (match loadNotesAux db rest with
       | .ok l => .ok (r :: l)
       | .err => .err
       | .panicked => .panicked)
    | some _ => .err

/-- Model of `ExecutionContext::load_notes`. -/
def ExecutionContext.loadNotes (db : SledDatastore) :
    CtxResult (List NoteRaw) :=
  match db.readPlaintext "notes_ids".data with
  | some (.plain (.noteIds ids)) => loadNotesAux db ids
  | none => .ok []
  | some _ => .err

/-- The record-collection loop of `ExecutionContext::load_accounts`,
skipping missing records. -/
def loadAccountsAux (db : SledDatastore) :
    List Str → CtxResult (List AccountRaw)
  | [] => .ok []
  | id :: rest =>
    match db.readPlaintext id with
    | none => loadAccountsAux db rest
    | some (.plain (.account r)) =>
      (match loadAccountsAux db rest with
       | .ok l => .ok (r :: l)
       | .err => .err
       | .panicked => .panicked)
    | some _ => .err

/-- Model of `ExecutionContext::load_accounts`. -/
def ExecutionContext.loadAccounts (db : SledDatastore) :
    CtxResult (List AccountRaw) :=
  match db.readPlaintext "account_ids".data with
  | some (.plain (.accountIds ids)) => loadAccountsAux db ids
  | none => .ok []
  | some _ => .err

/-- The note record stored under a key, if any. -/
def noteRecOf (db : SledDatastore) (u : Str) : Option NoteRaw :=
  match db.readPlaintext u with
  | some (.plain (.note r)) => some r
  | _ => none

/-- The account record stored under a key, if any. -/
def accountRecOf (db : SledDatastore) (u : Str) : Option AccountRaw :=
  match db.readPlaintext u with
  | some (.plain (.account r)) => some r
  | _ => none

/-- A concrete store whose two indexes each contain one id with a record
and one dangling id with no record. -/
def holeyDb : SledDatastore :=
  ⟨[("notes_ids".data, .plain (.noteIds ["a".data, "b".data])),
    ("b".data, .plain (.note ⟨"b".data, "n".data, false, "v".data⟩)),
    ("account_ids".data, .plain (.accountIds ["c".data, "d".data])),
    ("d".data, .plain (.account ⟨"d".data, "m".data, "addr".data, true⟩))],
   none⟩

/-- The note with its secret zeroized in place, as `import_note` leaves
it before serializing the metadata record. -/
def zeroizedNote (note : Note) : Note :=
  { note with secret := note.secret.map (fun _ => 0) }

/-- The plaintext metadata record `import_note` writes under the uuid. -/
def noteRawFor (aliasName : Str) (note : Note) (uuid : Str) : NoteRaw :=
  { uuid := uuid, aliasName := aliasName, used := false,
    value := Note.toChars (zeroizedNote note) }

/-! ## Index/record consistency (`notes_ids` / `account_ids`) -/

/-- Is this stored value a (decodable) note metadata record? -/
def isNoteVal : Option DBVal → Bool
  | some (.plain (.note _)) => true
  | _ => false

/-- Is this stored value a (decodable) account metadata record? -/
def isAccountVal : Option DBVal → Bool
  | some (.plain (.account _)) => true
  | _ => false

/-- The uuids enumerated by the `notes_ids` index record (empty when the
record is absent or has the wrong shape). -/
def noteIdsOf (db : SledDatastore) : List Str :=
  match db.readPlaintext "notes_ids".data with
  | some (.plain (.noteIds ids)) => ids
  | _ => []

/-- The uuids enumerated by the `account_ids` index record. -/
def accountIdsOf (db : SledDatastore) : List Str :=
  match db.readPlaintext "account_ids".data with
  | some (.plain (.accountIds ids)) => ids
  | _ => []

/-- The `notes_ids` key holds a well-typed index record or nothing. -/
def notesIdsTyped (db : SledDatastore) : Prop :=
  db.readPlaintext "notes_ids".data =
    some (.plain (.noteIds (noteIdsOf db))) ∨
  db.readPlaintext "notes_ids".data = none

/-- The `account_ids` key holds a well-typed index record or nothing. -/
def accountIdsTyped (db : SledDatastore) : Prop :=
  db.readPlaintext "account_ids".data =
    some (.plain (.accountIds (accountIdsOf db))) ∨
  db.readPlaintext "account_ids".data = none

/-- The `notes_ids` index enumerates exactly the uuids of the live note
records: every listed uuid has a note record, and every stored note
record's key is listed. -/
def NotesExact (db : SledDatastore) : Prop :=
  (∀ u ∈ noteIdsOf db, isNoteVal (db.readPlaintext u) = true) ∧
  (∀ k ∈ db.sled.map Prod.fst,
    isNoteVal (db.readPlaintext k) = true → k ∈ noteIdsOf db)

/-- The `account_ids` index enumerates exactly the uuids of the live
account records. -/
def AccountsExact (db : SledDatastore) : Prop :=
  (∀ u ∈ accountIdsOf db, isAccountVal (db.readPlaintext u) = true) ∧
  (∀ k ∈ db.sled.map Prod.fst,
    isAccountVal (db.readPlaintext k) = true → k ∈ accountIdsOf db)

/-- Both indexes are in sync with the store. -/
def StoreExact (db : SledDatastore) : Prop := NotesExact db ∧ AccountsExact db

/-- The account record `generate_account` / `import_account` writes. -/
def accountRawFor (aliasName uuid address : Str) (wasEmpty : Bool) :
    AccountRaw :=
  { uuid := uuid, aliasName := aliasName, address := address,
    isDefault := wasEmpty }

instance (db : SledDatastore) : Decidable (notesIdsTyped db) := by
  unfold notesIdsTyped
  infer_instance

instance (db : SledDatastore) : Decidable (accountIdsTyped db) := by
  unfold accountIdsTyped
  infer_instance

instance (db : SledDatastore) : Decidable (NotesExact db) := by
  unfold NotesExact
  infer_instance

instance (db : SledDatastore) : Decidable (AccountsExact db) := by
  unfold AccountsExact
  infer_instance

instance (db : SledDatastore) : Decidable (StoreExact db) := by
  unfold StoreExact
  infer_instance

/-- A concrete store with one note record indexed by `notes_ids`. -/
def oneNoteSled : List (Str × DBVal) :=
  [("notes_ids".data, .plain (.noteIds ["u1".data])),
   ("u1".data, .plain (.note ⟨"u1".data, "n".data, false, "v".data⟩))]

/-! ## Theorems -/

/-! ## Round-trip lemmas for the note codec -/

theorem splitOnChar_not_mem (c : Char) (p : List Char) (h : c ∉ p) :
    splitOnChar c p = [p] := by
  induction p with
  | nil => rfl
  | cons x rest ih =>
    have hx : ¬(x = c) := by rintro rfl; exact h (List.mem_cons_self _ _)
    rw [splitOnChar, if_neg hx, ih (fun hm => h (List.mem_cons_of_mem _ hm))]

theorem splitOnChar_append (c : Char) (p rest : List Char) (h : c ∉ p) :
    splitOnChar c (p ++ c :: rest) = p :: splitOnChar c rest := by
  induction p with
  | nil =>
    rw [List.nil_append, splitOnChar, if_pos rfl]
  | cons x xs ih =>
    have hx : ¬(x = c) := by rintro rfl; exact h (List.mem_cons_self _ _)
    rw [List.cons_append, splitOnChar, if_neg hx,
      ih (fun hm => h (List.mem_cons_of_mem _ hm))]

theorem splitOnChar_joinWith (c : Char) (parts : List (List Char))
    (hne : parts ≠ []) (h : ∀ p ∈ parts, c ∉ p) :
    splitOnChar c (joinWith c parts) = parts := by
  induction parts with
  | nil => exact absurd rfl hne
  | cons p ps ih =>
    cases ps with
    | nil => exact splitOnChar_not_mem c p (h p (List.mem_cons_self _ _))
    | cons q qs =>
      have hj : joinWith c (p :: q :: qs) = p ++ c :: joinWith c (q :: qs) := rfl
      rw [hj, splitOnChar_append c p _ (h p (List.mem_cons_self _ _)),
        ih (by simp) (fun r hr => h r (List.mem_cons_of_mem _ hr))]

theorem natToCharsAux_eq_digits (fuel n : ℕ) (h : n ≤ fuel) :
    natToCharsAux fuel n = ((Nat.digits 10 n).map digitChar).reverse := by
  induction fuel generalizing n with
  | zero =>
    interval_cases n
    simp [natToCharsAux]
  | succ fuel ih =>
    rw [natToCharsAux]
    by_cases hn : n = 0
    · subst hn; simp
    · have hlt : n / 10 ≤ fuel := by
        have : n / 10 < n := Nat.div_lt_self (Nat.pos_of_ne_zero hn) (by norm_num)
        omega
      rw [if_neg hn, ih _ hlt, Nat.digits_def' (by norm_num : 1 < 10) (Nat.pos_of_ne_zero hn)]
      simp

theorem natToChars_eq_digits (n : ℕ) (h : n ≠ 0) :
    natToChars n = ((Nat.digits 10 n).map digitChar).reverse := by
  rw [natToChars, if_neg h, natToCharsAux_eq_digits n n le_rfl]

theorem digitChar_toNat (d : ℕ) (h : d < 10) : (digitChar d).toNat = 48 + d := by
  interval_cases d <;> rfl

theorem digitChar_isDigit (d : ℕ) (h : d < 10) : (digitChar d).isDigit = true := by
  interval_cases d <;> rfl

theorem digitChar_ne_colon (d : ℕ) (h : d < 10) : digitChar d ≠ ':' := by
  interval_cases d <;> decide

theorem digitChar_ne_plus (d : ℕ) (h : d < 10) : digitChar d ≠ '+' := by
  interval_cases d <;> decide

theorem natToChars_mem (n : ℕ) (c : Char) (hc : c ∈ natToChars n) :
    ∃ d, d < 10 ∧ c = digitChar d := by
  by_cases hn : n = 0
  · subst hn
    have h0 : natToChars 0 = ['0'] := rfl
    rw [h0, List.mem_singleton] at hc
    exact ⟨0, by norm_num, hc⟩
  · rw [natToChars_eq_digits n hn] at hc
    rw [List.mem_reverse, List.mem_map] at hc
    obtain ⟨d, hd, rfl⟩ := hc
    exact ⟨d, Nat.digits_lt_base (by norm_num) hd, rfl⟩

theorem natToChars_no_colon (n : ℕ) : ':' ∉ natToChars n := by
  intro hc
  obtain ⟨d, hd, he⟩ := natToChars_mem n ':' hc
  exact digitChar_ne_colon d hd he.symm

theorem natToChars_ne_nil (n : ℕ) : natToChars n ≠ [] := by
  by_cases hn : n = 0
  · subst hn; decide
  · rw [natToChars_eq_digits n hn]
    simp [Nat.digits_ne_nil_iff_ne_zero, hn]

theorem foldr_digits_eq_ofDigits (L : List ℕ) :
    L.foldr (fun d a => a * 10 + d) 0 = Nat.ofDigits 10 L := by
  induction L with
  | nil => rfl
  | cons d L ih =>
    rw [List.foldr_cons, ih, Nat.ofDigits_cons]
    ring

theorem foldr_map_digitChar (L : List ℕ) (h : ∀ d ∈ L, d < 10) :
    (L.map digitChar).foldr (fun c a => a * 10 + (c.toNat - 48)) 0 =
      L.foldr (fun d a => a * 10 + d) 0 := by
  induction L with
  | nil => rfl
  | cons d L ih =>
    rw [List.map_cons, List.foldr_cons, List.foldr_cons,
      ih (fun x hx => h x (List.mem_cons_of_mem _ hx)),
      digitChar_toNat d (h d (List.mem_cons_self _ _))]
    omega

theorem parseUnsigned_natToChars (max n : ℕ) (h : n ≤ max) :
    parseUnsigned max (natToChars n) = some n := by
  by_cases hn : n = 0
  · subst hn
    have h0 : natToChars 0 = ['0'] := rfl
    rw [h0]
    have : parseUnsigned max ['0'] = if 0 ≤ max then some 0 else none := rfl
    rw [this, if_pos (Nat.zero_le max)]
  · have hd := natToChars_eq_digits n hn
    have hmem := natToChars_mem n
    have hne := natToChars_ne_nil n
    rw [parseUnsigned]
    have hhead : ¬(natToChars n).head? = some '+' := by
      rcases hl : natToChars n with _ | ⟨c, cs⟩
      · exact absurd hl hne
      · simp only [List.head?_cons, Option.some_inj]
        obtain ⟨d, hd10, rfl⟩ := hmem c (by rw [hl]; exact List.mem_cons_self _ _)
        exact digitChar_ne_plus d hd10
    rw [if_neg hhead, if_neg hne]
    have hall : (natToChars n).all Char.isDigit = true := by
      rw [List.all_eq_true]
      intro c hc
      obtain ⟨d, hd10, rfl⟩ := hmem c hc
      exact digitChar_isDigit d hd10
    rw [if_pos hall]
    have hval : (natToChars n).foldl (fun a c => a * 10 + (c.toNat - 48)) 0 = n := by
      rw [hd, List.foldl_reverse]
      have : ∀ L : List Char, L.foldr (fun x y => (fun a c => a * 10 + (c.toNat - 48)) y x) 0 =
          L.foldr (fun c a => a * 10 + (c.toNat - 48)) 0 := fun L => rfl
      rw [this, foldr_map_digitChar _ (fun d hdm => Nat.digits_lt_base (by norm_num) hdm),
        foldr_digits_eq_ofDigits, Nat.ofDigits_digits]
    rw [hval, if_pos h]

theorem parseU8_natToChars (n : ℕ) (h : n ≤ 255) : parseU8 (natToChars n) = some n :=
  parseUnsigned_natToChars 255 n h

theorem parseU32_natToChars (n : ℕ) (h : n ≤ 4294967295) :
    parseU32 (natToChars n) = some n :=
  parseUnsigned_natToChars 4294967295 n h

theorem parseUsize_natToChars (n : ℕ) (h : n ≤ 18446744073709551615) :
    parseUsize (natToChars n) = some n :=
  parseUnsigned_natToChars 18446744073709551615 n h

theorem hexDigitVal_hexDigitChar (d : ℕ) (h : d < 16) :
    hexDigitVal (hexDigitChar d) = some d := by
  interval_cases d <;> rfl

theorem hexDigitChar_ne_colon (d : ℕ) (h : d < 16) : hexDigitChar d ≠ ':' := by
  interval_cases d <;> decide

theorem hexDigitChar_ne_x (d : ℕ) (h : d < 16) : hexDigitChar d ≠ 'x' := by
  interval_cases d <;> decide

theorem hexEncodeChars_mem (bytes : List ℕ) (h : ∀ b ∈ bytes, b < 256)
    (c : Char) (hc : c ∈ hexEncodeChars bytes) : ∃ d, d < 16 ∧ c = hexDigitChar d := by
  induction bytes with
  | nil => simp [hexEncodeChars] at hc
  | cons b bs ih =>
    have hb : b < 256 := h b (List.mem_cons_self _ _)
    rw [hexEncodeChars, List.foldr_cons] at hc
    rw [List.mem_cons, List.mem_cons] at hc
    rcases hc with hc | hc | hc
    · exact ⟨b / 16, by omega, hc⟩
    · exact ⟨b % 16, Nat.mod_lt _ (by norm_num), hc⟩
    · exact ih (fun x hx => h x (List.mem_cons_of_mem _ hx)) hc

theorem hexEncodeChars_no_colon (bytes : List ℕ) (h : ∀ b ∈ bytes, b < 256) :
    ':' ∉ hexEncodeChars bytes := by
  intro hc
  obtain ⟨d, hd, he⟩ := hexEncodeChars_mem bytes h ':' hc
  exact hexDigitChar_ne_colon d hd he.symm

theorem hexEncodeChars_no_x (bytes : List ℕ) (h : ∀ b ∈ bytes, b < 256) :
    'x' ∉ hexEncodeChars bytes := by
  intro hc
  obtain ⟨d, hd, he⟩ := hexEncodeChars_mem bytes h 'x' hc
  exact hexDigitChar_ne_x d hd he.symm

theorem remove0x_no_x (l : List Char) (h : 'x' ∉ l) : remove0x l = l := by
  induction l with
  | nil => rfl
  | cons a rest ih =>
    cases rest with
    | nil => rfl
    | cons b bs =>
      rw [remove0x]
      have hb : ¬(a = '0' ∧ b = 'x') := by
        rintro ⟨-, rfl⟩
        exact h (List.mem_cons_of_mem _ (List.mem_cons_self _ _))
      rw [if_neg hb, ih (fun hm => h (List.mem_cons_of_mem _ hm))]

theorem hexDecode_hexEncode (bytes : List ℕ) (h : ∀ b ∈ bytes, b < 256) :
    hexDecodeList (hexEncodeChars bytes) = some bytes := by
  induction bytes with
  | nil => rfl
  | cons b bs ih =>
    have hb : b < 256 := h b (List.mem_cons_self _ _)
    have hrw : hexEncodeChars (b :: bs) =
        hexDigitChar (b / 16) :: hexDigitChar (b % 16) :: hexEncodeChars bs := rfl
    rw [hrw, hexDecodeList, hexDigitVal_hexDigitChar (b / 16) (by omega),
      hexDigitVal_hexDigitChar (b % 16) (Nat.mod_lt _ (by norm_num)),
      ih (fun x hx => h x (List.mem_cons_of_mem _ hx))]
    show some ((16 * (b / 16) + b % 16) :: bs) = some (b :: bs)
    have hbeq : 16 * (b / 16) + b % 16 = b := by omega
    rw [hbeq]

theorem hexEncodeChars_length (bytes : List ℕ) :
    (hexEncodeChars bytes).length = 2 * bytes.length := by
  induction bytes with
  | nil => rfl
  | cons b bs ih =>
    have hrw : hexEncodeChars (b :: bs) =
        hexDigitChar (b / 16) :: hexDigitChar (b % 16) :: hexEncodeChars bs := rfl
    rw [hrw]
    simp [ih]
    ring

theorem notePfx_fromStr_toStr (p : NotePfx) : NotePfx.fromStr p.toStr = .ok p := by
  cases p <;> rfl

theorem noteVersion_fromStr_toStr (v : NoteVersion) :
    NoteVersion.fromStr v.toStr = .ok v := by
  cases v <;> rfl

theorem backend_fromStr_toStr (b : Backend) : Backend.fromStr b.toStr = .ok b := by
  cases b <;> rfl

theorem curve_fromStr_toStr (c : Curve) : Curve.fromStr c.toStr = .ok c := by
  cases c <;> rfl

theorem hashFunction_fromStr_toStr (h : HashFunction) :
    HashFunction.fromStr h.toStr = .ok h := by
  cases h <;> rfl

theorem notePfx_toStr_no_colon (p : NotePfx) : ':' ∉ p.toStr := by
  cases p <;> decide

theorem noteVersion_toStr_no_colon (v : NoteVersion) : ':' ∉ v.toStr := by
  cases v <;> decide

theorem backend_toStr_no_colon (b : Backend) : ':' ∉ b.toStr := by
  cases b <;> decide

theorem curve_toStr_no_colon (c : Curve) : ':' ∉ c.toStr := by
  cases c <;> decide

theorem hashFunction_toStr_no_colon (h : HashFunction) : ':' ∉ h.toStr := by
  cases h <;> decide

theorem splitOnChar_toChars (n : Note) (htok : ':' ∉ n.tokenSymbol)
    (hamt : ':' ∉ n.amount) (hsval : ∀ b ∈ n.secret, b < 256) :
    splitOnChar ':' (Note.toChars n) =
      [n.pfx.toStr, n.version.toStr, natToChars n.targetChainId,
       natToChars n.sourceChainId, n.backend.toStr, n.curve.toStr,
       n.hashFunction.toStr, n.tokenSymbol, natToChars n.denomination,
       n.amount, natToChars n.exponentiation, natToChars n.width,
       hexEncodeChars n.secret] := by
  apply splitOnChar_joinWith
  · simp
  · intro p hp
    simp only [List.mem_cons, List.not_mem_nil, or_false] at hp
    rcases hp with rfl | rfl | rfl | rfl | rfl | rfl | rfl | rfl | rfl | rfl | rfl | rfl | rfl
    · exact notePfx_toStr_no_colon n.pfx
    · exact noteVersion_toStr_no_colon n.version
    · exact natToChars_no_colon _
    · exact natToChars_no_colon _
    · exact backend_toStr_no_colon n.backend
    · exact curve_toStr_no_colon n.curve
    · exact hashFunction_toStr_no_colon n.hashFunction
    · exact htok
    · exact natToChars_no_colon _
    · exact hamt
    · exact natToChars_no_colon _
    · exact natToChars_no_colon _
    · exact hexEncodeChars_no_colon _ hsval

theorem Note.roundtrip_wf (n : Note) (h : n.wf) :
    Note.fromChars (Note.toChars n) = .ok n := by
  obtain ⟨htok, hamt, h2, h3, he, hw, hd, hslen, hsval⟩ := h
  rw [Note.fromChars, splitOnChar_toChars n htok hamt hsval]
  rw [Note.fromParts]
  rw [notePfx_fromStr_toStr, noteVersion_fromStr_toStr,
    parseU32_natToChars n.targetChainId (by omega),
    parseU32_natToChars n.sourceChainId (by omega),
    backend_fromStr_toStr, curve_fromStr_toStr, hashFunction_fromStr_toStr,
    parseU8_natToChars n.denomination (by omega),
    parseU8_natToChars n.exponentiation (by omega),
    parseUsize_natToChars n.width (by omega),
    remove0x_no_x _ (hexEncodeChars_no_x _ hsval),
    hexDecode_hexEncode _ hsval]
  simp only [hslen, if_pos]

/-- C1: for every valid note `n`, serialization followed by parsing
returns exactly `n`, field for field, including the 64-byte secret. -/
theorem note_serialize_parse_roundtrip (n : Note) (h : n.wf) :
    Note.fromChars (Note.toChars n) = .ok n :=
  Note.roundtrip_wf n h

/-- C1 witness: the round-trip theorem applied to a concrete valid note. -/
theorem note_serialize_parse_roundtrip_witness :
    sampleNote.wf ∧ Note.fromChars (Note.toChars sampleNote) = .ok sampleNote :=
  ⟨by decide, note_serialize_parse_roundtrip sampleNote (by decide)⟩

/-- C2: contrary to the claim, `Note::from_str` does not always return an
error on malformed fields: a note string with 13 fields, a valid head,
and a non-numeric denomination field (`x` in position 8 here) reaches
`parts[8].parse().unwrap()` in the source and panics. -/
theorem note_fromStr_panics_on_bad_denomination :
    Note.fromChars
      "webb.mixer:v1:1:2:Arkworks:Bn254:Poseidon:EDG:x:1:5:5:aa".data =
      .panicked := by
  decide

theorem hexDecodeList_some (l : Str) (bs : List ℕ)
    (h : hexDecodeList l = some bs) :
    l.length = 2 * bs.length ∧ ∀ c ∈ l, (hexDigitVal c).isSome := by
  induction l using hexDecodeList.induct generalizing bs with
  | case1 =>
    simp only [hexDecodeList, Option.some_inj] at h
    subst h
    simp
  | case2 c =>
    simp [hexDecodeList] at h
  | case3 a b rest ih =>
    rw [hexDecodeList] at h
    rcases ha : hexDigitVal a with - | hi <;> rw [ha] at h
    · simp at h
    rcases hb : hexDigitVal b with - | lo <;> rw [hb] at h
    · simp at h
    rcases hr : hexDecodeList rest with - | r <;> rw [hr] at h
    · simp at h
    simp only [Option.some_bind, Option.map_some, Option.map_some', Option.some_inj] at h
    subst h
    obtain ⟨hlen, hmem⟩ := ih r hr
    refine ⟨by simp [hlen]; ring, ?_⟩
    intro c hc
    rw [List.mem_cons, List.mem_cons] at hc
    rcases hc with rfl | rfl | hc
    · simp [ha]
    · simp [hb]
    · exact hmem c hc

theorem hexDecodeList_of_hex (l : Str) (heven : l.length % 2 = 0)
    (hhex : ∀ c ∈ l, (hexDigitVal c).isSome) :
    ∃ bs, hexDecodeList l = some bs ∧ bs.length = l.length / 2 := by
  induction l using hexDecodeList.induct with
  | case1 => exact ⟨[], rfl, rfl⟩
  | case2 c => simp at heven
  | case3 a b rest ih =>
    have ha := hhex a (List.mem_cons_self _ _)
    have hb := hhex b (List.mem_cons_of_mem _ (List.mem_cons_self _ _))
    rcases ha' : hexDigitVal a with - | hi
    · rw [ha'] at ha; simp at ha
    rcases hb' : hexDigitVal b with - | lo
    · rw [hb'] at hb; simp at hb
    obtain ⟨r, hr, hrlen⟩ := ih (by simp at heven ⊢; omega)
      (fun c hc => hhex c (List.mem_cons_of_mem _ (List.mem_cons_of_mem _ hc)))
    refine ⟨(16 * hi + lo) :: r, ?_, ?_⟩
    · rw [hexDecodeList, ha', hb', hr]
      rfl
    · simp [hrlen]
      omega

theorem splitOnChar_secretTestHead (f : Str) (hf : ':' ∉ f) :
    splitOnChar ':' (secretTestHead ++ f) =
      ["webb.mixer".data, "v1".data, "1".data, "2".data, "Arkworks".data,
       "Bn254".data, "Poseidon".data, "EDG".data, "1".data, "1".data,
       "5".data, "5".data, f] := by
  have hj : secretTestHead ++ f =
      joinWith ':' ["webb.mixer".data, "v1".data, "1".data, "2".data,
        "Arkworks".data, "Bn254".data, "Poseidon".data, "EDG".data,
        "1".data, "1".data, "5".data, "5".data, f] := rfl
  rw [hj]
  apply splitOnChar_joinWith
  · simp
  · intro p hp
    simp only [List.mem_cons, List.not_mem_nil, or_false] at hp
    rcases hp with rfl | rfl | rfl | rfl | rfl | rfl | rfl | rfl | rfl | rfl | rfl | rfl | rfl
    · decide
    · decide
    · decide
    · decide
    · decide
    · decide
    · decide
    · decide
    · decide
    · decide
    · decide
    · decide
    · exact hf

/-- C8 (amended): `from_str` accepts the 13th (secret) field exactly when
deleting every occurrence of the substring `0x` (not only a single
leading prefix) leaves exactly 128 hexadecimal characters; and
`to_string` always emits the secret as the 13th field, 128 hex characters
containing no `x` at all (hence no `0x` prefix). -/
theorem note_secret_field_spec :
    (∀ f : Str, ':' ∉ f →
      ((∃ nt, Note.fromChars (secretTestHead ++ f) = .ok nt) ↔
        ((remove0x f).length = 128 ∧ ∀ c ∈ remove0x f, (hexDigitVal c).isSome))) ∧
    (∀ n : Note, n.wf →
      (splitOnChar ':' (Note.toChars n)).getD 12 [] = hexEncodeChars n.secret ∧
      (hexEncodeChars n.secret).length = 128 ∧
      (∀ c ∈ hexEncodeChars n.secret, (hexDigitVal c).isSome) ∧
      'x' ∉ hexEncodeChars n.secret) := by
  constructor
  · intro f hf
    have hsplit0 : Note.fromChars (secretTestHead ++ f) =
        Note.fromParts
          ["webb.mixer".data, "v1".data, "1".data, "2".data, "Arkworks".data,
           "Bn254".data, "Poseidon".data, "EDG".data, "1".data, "1".data,
           "5".data, "5".data, f] := by
      rw [Note.fromChars, splitOnChar_secretTestHead f hf]
    have hred : Note.fromParts
        ["webb.mixer".data, "v1".data, "1".data, "2".data, "Arkworks".data,
         "Bn254".data, "Poseidon".data, "EDG".data, "1".data, "1".data,
         "5".data, "5".data, f] =
        (match hexDecodeList (remove0x f) with
         | none => .err .hexErr
         | some bytes =>
           if bytes.length = 64 then
             .ok { pfx := .mixer, version := .v1, targetChainId := 1,
                   sourceChainId := 2, backend := .arkworks,
                   hashFunction := .poseidon, curve := .bn254,
                   exponentiation := 5, width := 5, secret := bytes,
                   tokenSymbol := "EDG".data, amount := "1".data,
                   denomination := 1 }
           else .err .invalidNoteSecrets) := rfl
    rcases hdec : hexDecodeList (remove0x f) with - | bytes
    · have hval : Note.fromChars (secretTestHead ++ f) = .err .hexErr := by
        rw [hsplit0, hred, hdec]
      rw [hval]
      constructor
      · rintro ⟨nt, hnt⟩
        simp at hnt
      · rintro ⟨hlen, hhex⟩
        obtain ⟨bs, hbs, -⟩ := hexDecodeList_of_hex (remove0x f) (by omega) hhex
        rw [hdec] at hbs
        exact absurd hbs (by simp)
    · by_cases hb64 : bytes.length = 64
      · have hval : Note.fromChars (secretTestHead ++ f) =
            .ok { pfx := .mixer, version := .v1, targetChainId := 1,
                  sourceChainId := 2, backend := .arkworks,
                  hashFunction := .poseidon, curve := .bn254,
                  exponentiation := 5, width := 5, secret := bytes,
                  tokenSymbol := "EDG".data, amount := "1".data,
                  denomination := 1 } := by
          rw [hsplit0, hred, hdec]
          exact if_pos hb64
        rw [hval]
        constructor
        · rintro -
          obtain ⟨hlen, hhex⟩ := hexDecodeList_some _ _ hdec
          exact ⟨by omega, hhex⟩
        · rintro -
          exact ⟨_, rfl⟩
      · have hval : Note.fromChars (secretTestHead ++ f) =
            .err .invalidNoteSecrets := by
          rw [hsplit0, hred, hdec]
          exact if_neg hb64
        rw [hval]
        constructor
        · rintro ⟨nt, hnt⟩
          simp at hnt
        · rintro ⟨hlen, hhex⟩
          obtain ⟨bs, hbs, hbslen⟩ := hexDecodeList_of_hex (remove0x f) (by omega) hhex
          rw [hdec, Option.some_inj] at hbs
          rw [hbs] at hb64
          rw [hlen] at hbslen
          omega
  · intro n hn
    obtain ⟨htok, hamt, h2, h3, he, hw, hd, hslen, hsval⟩ := hn
    refine ⟨?_, ?_, ?_, hexEncodeChars_no_x _ hsval⟩
    · rw [splitOnChar_toChars n htok hamt hsval]
      rfl
    · rw [hexEncodeChars_length, hslen]
    · intro c hc
      obtain ⟨d, hd16, rfl⟩ := hexEncodeChars_mem _ hsval c hc
      rw [hexDigitVal_hexDigitChar d hd16]
      rfl

/-- C8 counterexample: a 13-field note string whose secret field has `0x`
in the middle — so it is not 128 hex characters with an optional leading
`0x` prefix — is nevertheless accepted by `Note::from_str`, because the
source deletes every `0x` occurrence before hex-decoding. -/
theorem note_secret_field_claim_counterexample :
    claimedSecretFieldAccept oddSecretField = false ∧
    (splitOnChar ':' (secretTestHead ++ oddSecretField)).getD 12 [] =
      oddSecretField ∧
    Note.fromChars (secretTestHead ++ oddSecretField) =
      .ok { pfx := .mixer, version := .v1, targetChainId := 1,
            sourceChainId := 2, backend := .arkworks,
            hashFunction := .poseidon, curve := .bn254,
            exponentiation := 5, width := 5,
            secret := List.replicate 64 170, tokenSymbol := "EDG".data,
            amount := "1".data, denomination := 1 } := by
  refine ⟨by decide, by decide, by decide⟩

/-- C8 witness: the amended acceptance/emission theorem applied at a
concrete hex field and at a concrete valid note. -/
theorem note_secret_field_spec_witness :
    ((∃ nt, Note.fromChars
        (secretTestHead ++ hexEncodeChars (List.replicate 64 171)) = .ok nt) ↔
      ((remove0x (hexEncodeChars (List.replicate 64 171))).length = 128 ∧
        ∀ c ∈ remove0x (hexEncodeChars (List.replicate 64 171)),
          (hexDigitVal c).isSome)) ∧
    ((splitOnChar ':' (Note.toChars sampleNote)).getD 12 [] =
        hexEncodeChars sampleNote.secret ∧
      (hexEncodeChars sampleNote.secret).length = 128 ∧
      (∀ c ∈ hexEncodeChars sampleNote.secret, (hexDigitVal c).isSome) ∧
      'x' ∉ hexEncodeChars sampleNote.secret) :=
  ⟨note_secret_field_spec.1 (hexEncodeChars (List.replicate 64 171)) (by decide),
   note_secret_field_spec.2 sampleNote (by decide)⟩

theorem pairUpLvl_length (hash : ℕ → ℕ → ℕ) (z : ℕ) (l : List ℕ) :
    (pairUpLvl hash z l).length = (l.length + 1) / 2 := by
  induction l using twoStepRec with
  | h0 => rfl
  | h1 x => simp [pairUpLvl]
  | h2 x y rest ih =>
    rw [pairUpLvl, List.length_cons, ih]
    simp only [List.length_cons]
    omega

theorem pairUpFull_replicate (hash : ℕ → ℕ → ℕ) (z : ℕ) (n : ℕ) :
    pairUpFull hash (List.replicate (2 * n) z) = List.replicate n (hash z z) := by
  induction n with
  | zero => rfl
  | succ n ih =>
    have h2 : 2 * (n + 1) = (2 * n) + 1 + 1 := by ring
    rw [h2, List.replicate_succ, List.replicate_succ, pairUpFull, ih,
      List.replicate_succ]

theorem pairUpFull_padZ (hash : ℕ → ℕ → ℕ) (z : ℕ) (l : List ℕ) (n : ℕ)
    (h : l.length ≤ 2 * n) :
    pairUpFull hash (l ++ List.replicate (2 * n - l.length) z) =
      pairUpLvl hash z l ++ List.replicate (n - (l.length + 1) / 2) (hash z z) := by
  induction l using twoStepRec generalizing n with
  | h0 =>
    simp only [List.nil_append, List.length_nil, Nat.sub_zero]
    rw [pairUpFull_replicate, pairUpLvl]
    simp
  | h1 x =>
    have hn : 1 ≤ n := by
      simp only [List.length_cons, List.length_nil] at h
      omega
    have h1 : 2 * n - [x].length = 2 * (n - 1) + 1 := by
      simp only [List.length_cons, List.length_nil]
      omega
    rw [h1, List.replicate_succ, pairUpLvl]
    have hcons : [x] ++ z :: List.replicate (2 * (n - 1)) z =
        x :: z :: List.replicate (2 * (n - 1)) z := rfl
    rw [hcons, pairUpFull, pairUpFull_replicate]
    have h2 : n - ([x].length + 1) / 2 = n - 1 := by
      simp only [List.length_cons, List.length_nil]
    rw [h2]
    rfl
  | h2 x y rest ih =>
    have hlen : (x :: y :: rest).length = rest.length + 2 := by simp
    have hr : rest.length ≤ 2 * (n - 1) := by
      rw [hlen] at h
      omega
    have h1 : 2 * n - (x :: y :: rest).length = 2 * (n - 1) - rest.length := by
      rw [hlen]
      omega
    have hcons : (x :: y :: rest) ++ List.replicate (2 * (n - 1) - rest.length) z =
        x :: y :: (rest ++ List.replicate (2 * (n - 1) - rest.length) z) := by
      simp
    rw [h1, hcons, pairUpFull, ih (n - 1) hr, pairUpLvl]
    have h2 : n - ((x :: y :: rest).length + 1) / 2 =
        (n - 1) - (rest.length + 1) / 2 := by
      rw [hlen]
      omega
    rw [h2]
    simp

theorem pairUpFull_inj (hash : ℕ → ℕ → ℕ)
    (hinj : ∀ a b a' b', hash a b = hash a' b' → a = a' ∧ b = b')
    (l₁ l₂ : List ℕ) (hlen : l₁.length = l₂.length)
    (hev : l₁.length % 2 = 0) (h : pairUpFull hash l₁ = pairUpFull hash l₂) :
    l₁ = l₂ := by
  induction l₁ using twoStepRec generalizing l₂ with
  | h0 =>
    cases l₂ with
    | nil => rfl
    | cons a t => simp at hlen
  | h1 x => simp at hev
  | h2 x y rest ih =>
    cases l₂ with
    | nil => simp at hlen
    | cons a t =>
      cases t with
      | nil => simp at hlen
      | cons b t2 =>
        rw [pairUpFull, pairUpFull, List.cons.injEq] at h
        obtain ⟨hxy, hrest⟩ := h
        obtain ⟨rfl, rfl⟩ := hinj _ _ _ _ hxy
        have heq : rest = t2 := by
          apply ih t2 _ _ hrest
          · simp at hlen
            omega
          · simp at hev ⊢
            omega
        rw [heq]

theorem padZ_one (z : ℕ) (l : List ℕ) (h : l.length ≤ 1) :
    padZ z 1 l = [l.headD z] := by
  rcases l with - | ⟨a, t⟩
  · rfl
  · rcases t with - | ⟨b, t2⟩
    · rfl
    · simp at h

theorem padZ_length (z n : ℕ) (l : List ℕ) (h : l.length ≤ n) :
    (padZ z n l).length = n := by
  simp [padZ]
  omega

theorem rootAux_inj (hash : ℕ → ℕ → ℕ)
    (hinj : ∀ a b a' b', hash a b = hash a' b' → a = a' ∧ b = b') :
    ∀ (d z : ℕ) (l₁ l₂ : List ℕ), l₁.length ≤ 2 ^ d → l₂.length ≤ 2 ^ d →
      rootAux hash d z l₁ = rootAux hash d z l₂ →
      padZ z (2 ^ d) l₁ = padZ z (2 ^ d) l₂ := by
  intro d
  induction d with
  | zero =>
    intro z l₁ l₂ h₁ h₂ h
    rw [pow_zero] at h₁ h₂ ⊢
    rw [padZ_one z l₁ h₁, padZ_one z l₂ h₂]
    simp only [rootAux] at h
    rw [h]
  | succ d ih =>
    intro z l₁ l₂ h₁ h₂ h
    have h2pow : 2 ^ (d + 1) = 2 * 2 ^ d := by rw [pow_succ]; ring
    simp only [rootAux] at h
    have hl1 : (pairUpLvl hash z l₁).length ≤ 2 ^ d := by
      rw [pairUpLvl_length]
      omega
    have hl2 : (pairUpLvl hash z l₂).length ≤ 2 ^ d := by
      rw [pairUpLvl_length]
      omega
    have hp := ih (hash z z) _ _ hl1 hl2 h
    have key : ∀ l : List ℕ, l.length ≤ 2 ^ (d + 1) →
        pairUpFull hash (padZ z (2 ^ (d + 1)) l) =
          padZ (hash z z) (2 ^ d) (pairUpLvl hash z l) := by
      intro l hl
      rw [padZ, padZ, h2pow] at *
      rw [pairUpFull_padZ hash z l (2 ^ d) (by omega), pairUpLvl_length]
    have hfull : pairUpFull hash (padZ z (2 ^ (d + 1)) l₁) =
        pairUpFull hash (padZ z (2 ^ (d + 1)) l₂) := by
      rw [key l₁ h₁, key l₂ h₂, hp]
    apply pairUpFull_inj hash hinj _ _ _ _ hfull
    · rw [padZ_length z _ _ h₁, padZ_length z _ _ h₂]
    · rw [padZ_length z _ _ h₁]
      omega

theorem treeRoot_append_ne (hash : ℕ → ℕ → ℕ)
    (hinj : ∀ a b a' b', hash a b = hash a' b' → a = a' ∧ b = b')
    (d : ℕ) (l : List ℕ) (x : ℕ) (hx : x ≠ 0) (hlen : l.length < 2 ^ d) :
    treeRoot hash d (l ++ [x]) ≠ treeRoot hash d l := by
  intro h
  have hp := rootAux_inj hash hinj d 0 (l ++ [x]) l (by simp; omega)
    (by omega) h
  have h1 : (padZ 0 (2 ^ d) (l ++ [x]))[l.length]? = some x := by
    rw [padZ, List.append_assoc, List.getElem?_append_right (le_refl _)]
    simp
  have h2 : (padZ 0 (2 ^ d) l)[l.length]? = some 0 := by
    rw [padZ, List.getElem?_append_right (le_refl _)]
    simp only [Nat.sub_self, List.getElem?_replicate]
    rw [if_pos (by omega)]
  rw [hp, h2] at h1
  exact hx (Option.some_inj.mp h1).symm

theorem pairUpLvl_append_default (hash : ℕ → ℕ → ℕ) (z : ℕ) (l : List ℕ) :
    pairUpLvl hash z (l ++ [z]) =
      pairUpLvl hash z l ++ (if l.length % 2 = 0 then [hash z z] else []) := by
  induction l using twoStepRec with
  | h0 => simp [pairUpLvl]
  | h1 x =>
    have hc : [x] ++ [z] = [x, z] := rfl
    rw [hc]
    simp [pairUpLvl]
  | h2 x y rest ih =>
    have hc : (x :: y :: rest) ++ [z] = x :: y :: (rest ++ [z]) := rfl
    rw [hc, pairUpLvl, ih, pairUpLvl]
    by_cases hp : rest.length % 2 = 0
    · rw [if_pos hp, if_pos (by simp only [List.length_cons]; omega)]
      simp
    · rw [if_neg hp, if_neg (by simp only [List.length_cons]; omega)]
      simp

theorem rootAux_append_default (hash : ℕ → ℕ → ℕ) :
    ∀ (d z : ℕ) (l : List ℕ),
      rootAux hash d z (l ++ [z]) = rootAux hash d z l := by
  intro d
  induction d with
  | zero =>
    intro z l
    cases l <;> rfl
  | succ d ih =>
    intro z l
    simp only [rootAux]
    rw [pairUpLvl_append_default]
    by_cases hp : l.length % 2 = 0
    · rw [if_pos hp]
      exact ih (hash z z) (pairUpLvl hash z l)
    · rw [if_neg hp, List.append_nil]

/-- C3 (amended): batch and incremental insertion of the same leaf
sequence always give the same root; and, provided the two-to-one Merkle
hash is injective (collision-free) and the new leaf `d` differs from the
zero default for empty positions, inserting `[d]` after `[a, b, c]`
changes the root. -/
theorem mixer_batch_incremental_root (hash : ℕ → ℕ → ℕ)
    (hinj : ∀ a b a' b', hash a b = hash a' b' → a = a' ∧ b = b')
    (a b c d : ℕ) (hd : d ≠ 0) :
    Mixer.root hash (((Mixer.new 0).addLeaves [a, b, c]).addLeaves [d]) =
      Mixer.root hash ((Mixer.new 0).addLeaves [a, b, c, d]) ∧
    Mixer.root hash (((Mixer.new 0).addLeaves [a, b, c]).addLeaves [d]) ≠
      Mixer.root hash ((Mixer.new 0).addLeaves [a, b, c]) := by
  constructor
  · rfl
  · show treeRoot hash 32 ([a, b, c] ++ [d]) ≠ treeRoot hash 32 [a, b, c]
    exact treeRoot_append_ne hash hinj 32 [a, b, c] d hd (by norm_num)

/-- C3 witness: the amended theorem at the injective pairing hash and the
leaves `1, 2, 3` then `4`. -/
theorem mixer_batch_incremental_root_witness :
    Mixer.root Nat.pair (((Mixer.new 0).addLeaves [1, 2, 3]).addLeaves [4]) =
      Mixer.root Nat.pair ((Mixer.new 0).addLeaves [1, 2, 3, 4]) ∧
    Mixer.root Nat.pair (((Mixer.new 0).addLeaves [1, 2, 3]).addLeaves [4]) ≠
      Mixer.root Nat.pair ((Mixer.new 0).addLeaves [1, 2, 3]) :=
  mixer_batch_incremental_root Nat.pair
    (fun a b c d h => Nat.pair_eq_pair.mp h) 1 2 3 4 (by decide)

/-- C3 counterexample: as literally stated ("for every leaf `d`"), the
claim fails — inserting the zero default leaf leaves every node hash, and
hence the root, unchanged (for any two-to-one hash, here the pairing
function on the concrete leaves `1, 2, 3` then `0`). -/
theorem mixer_root_unchanged_on_default_leaf :
    Mixer.root Nat.pair (((Mixer.new 0).addLeaves [1, 2, 3]).addLeaves [0]) =
      Mixer.root Nat.pair ((Mixer.new 0).addLeaves [1, 2, 3]) := by
  show treeRoot Nat.pair 32 ([1, 2, 3] ++ [0]) = treeRoot Nat.pair 32 [1, 2, 3]
  exact rootAux_append_default Nat.pair 32 0 [1, 2, 3]

/-- C4: for a note saved into the tree, two `generate_proof` calls for
the same `(root, leaf)` pair — with different proof-system randomness —
return the identical nullifier hash (the one derived from the note's
nullifier when the note was saved), and the proof bytes are non-empty. -/
theorem generateProof_nullifier_stable (dl : ℕ → ℕ → ℕ × ℕ) (m : Mixer)
    (note : MixNote) (root rng₁ rng₂ : ℕ) :
    ((Mixer.saveNote dl m note).1.generateProof root
        (Mixer.saveNote dl m note).2 rng₁).nullifierHash =
      ((Mixer.saveNote dl m note).1.generateProof root
        (Mixer.saveNote dl m note).2 rng₂).nullifierHash ∧
    ((Mixer.saveNote dl m note).1.generateProof root
        (Mixer.saveNote dl m note).2 rng₁).nullifierHash =
      (dl note.r note.nullifier).2 ∧
    ((Mixer.saveNote dl m note).1.generateProof root
        (Mixer.saveNote dl m note).2 rng₁).proofBytes ≠ [] := by
  refine ⟨rfl, ?_, by simp [Mixer.generateProof]⟩
  show (match lookupSaved ((Mixer.saveNote dl m note).1).saved
      (Mixer.saveNote dl m note).2 with
    | some (_, _, nh) => nh
    | none => 0) = (dl note.r note.nullifier).2
  rw [Mixer.saveNote]
  show (match (if (dl note.r note.nullifier).1 = (dl note.r note.nullifier).1
      then some (note.r, note.nullifier, (dl note.r note.nullifier).2)
      else lookupSaved m.saved (dl note.r note.nullifier).1) with
    | some (_, _, nh) => nh
    | none => 0) = (dl note.r note.nullifier).2
  rw [if_pos rfl]

/-- C7: the `(leaf, nullifier hash)` derivation performed by `save_note`
is deterministic and depends only on the note's `(r, nullifier)` secret
material — two trees (fresh or not, with any ids) built from the same
note record the identical leaf and the identical nullifier hash. -/
theorem saveNote_deterministic (dl : ℕ → ℕ → ℕ × ℕ) (m₁ m₂ : Mixer)
    (note : MixNote) :
    (Mixer.saveNote dl m₁ note).2 = (Mixer.saveNote dl m₂ note).2 ∧
    lookupSaved (Mixer.saveNote dl m₁ note).1.saved
        (Mixer.saveNote dl m₁ note).2 =
      lookupSaved (Mixer.saveNote dl m₂ note).1.saved
        (Mixer.saveNote dl m₂ note).2 ∧
    lookupSaved (Mixer.saveNote dl m₁ note).1.saved
        (Mixer.saveNote dl m₁ note).2 =
      some (note.r, note.nullifier, (dl note.r note.nullifier).2) := by
  have key : ∀ m : Mixer,
      lookupSaved (Mixer.saveNote dl m note).1.saved
          (Mixer.saveNote dl m note).2 =
        some (note.r, note.nullifier, (dl note.r note.nullifier).2) := by
    intro m
    show (if (dl note.r note.nullifier).1 = (dl note.r note.nullifier).1
        then some (note.r, note.nullifier, (dl note.r note.nullifier).2)
        else lookupSaved m.saved (dl note.r note.nullifier).1) =
      some (note.r, note.nullifier, (dl note.r note.nullifier).2)
    rw [if_pos rfl]
  exact ⟨rfl, by rw [key m₁, key m₂], key m₁⟩

theorem lookup_insert_self (key : Str) (v : DBVal) (s : List (Str × DBVal)) :
    lookupKV (insertKV key v s) key = some v := by
  rw [insertKV, lookupKV, if_pos rfl]

theorem lookup_erase_other (key k2 : Str) (s : List (Str × DBVal))
    (h : k2 ≠ key) : lookupKV (eraseKey key s) k2 = lookupKV s k2 := by
  induction s with
  | nil => rfl
  | cons p rest ih =>
    obtain ⟨k, v⟩ := p
    rw [eraseKey]
    by_cases hk : k = key
    · rw [if_pos hk, ih, lookupKV, if_neg (by rw [hk]; exact fun e => h e.symm)]
    · rw [if_neg hk, lookupKV, lookupKV]
      by_cases hk2 : k = k2
      · rw [if_pos hk2, if_pos hk2]
      · rw [if_neg hk2, if_neg hk2, ih]

theorem lookup_erase_self (key : Str) (s : List (Str × DBVal)) :
    lookupKV (eraseKey key s) key = none := by
  induction s with
  | nil => rfl
  | cons p rest ih =>
    obtain ⟨k, v⟩ := p
    rw [eraseKey]
    by_cases hk : k = key
    · rw [if_pos hk, ih]
    · rw [if_neg hk, lookupKV, if_neg hk, ih]

theorem lookup_insert_other (key k2 : Str) (v : DBVal)
    (s : List (Str × DBVal)) (h : k2 ≠ key) :
    lookupKV (insertKV key v s) k2 = lookupKV s k2 := by
  rw [insertKV, lookupKV, if_neg (fun e => h e.symm), lookup_erase_other _ _ _ h]

theorem lookup_mem_keys (s : List (Str × DBVal)) (key : Str) (v : DBVal)
    (h : lookupKV s key = some v) : key ∈ s.map Prod.fst := by
  induction s with
  | nil => simp [lookupKV] at h
  | cons p rest ih =>
    obtain ⟨k, w⟩ := p
    rw [lookupKV] at h
    by_cases hk : k = key
    · subst hk
      rw [List.map_cons]
      exact List.mem_cons_self _ _
    · rw [if_neg hk] at h
      rw [List.map_cons]
      exact List.mem_cons_of_mem _ (ih h)

theorem sha256_inj (p q : List ℕ) (h : sha256 p = sha256 q) : p = q := by
  rw [sha256, sha256, List.cons.injEq] at h
  exact h.2

/-- C5: writing `v` under key `k` with the store opened with secret `p`
then reading `k` with the same secret returns exactly `v`; reading `k`
with any different passphrase fails with the explicit decryption error,
never returning other bytes as success. -/
theorem store_encrypted_roundtrip (sled : List (Str × DBVal))
    (p pbad : List ℕ) (k : Str) (v nonce : List ℕ) (hne : pbad ≠ p) :
    SledDatastore.write ⟨sled, some p⟩ k v nonce =
      .ok (⟨insertKV k (.cipher nonce (sha256 p) v) sled, some p⟩,
           lookupKV sled k) ∧
    SledDatastore.read
      ⟨insertKV k (.cipher nonce (sha256 p) v) sled, some p⟩ k =
      .ok (some v) ∧
    SledDatastore.read
      ⟨insertKV k (.cipher nonce (sha256 p) v) sled, some pbad⟩ k =
      .error "datastore decrypt failed".data := by
  refine ⟨rfl, ?_, ?_⟩
  · rw [SledDatastore.read]
    show (match lookupKV (insertKV k (.cipher nonce (sha256 p) v) sled) k with
      | none => Except.ok none
      | some (.cipher _ k2 msg) =>
        if k2 = sha256 p then .ok (some msg)
        else .error "datastore decrypt failed".data
      | some (.plain _) =>
        .error "datastore decrypt failed".data) = .ok (some v)
    rw [lookup_insert_self]
    show (if sha256 p = sha256 p then Except.ok (some v)
      else .error "datastore decrypt failed".data) = .ok (some v)
    rw [if_pos rfl]
  · rw [SledDatastore.read]
    show (match lookupKV (insertKV k (.cipher nonce (sha256 p) v) sled) k with
      | none => Except.ok none
      | some (.cipher _ k2 msg) =>
        if k2 = sha256 pbad then .ok (some msg)
        else .error "datastore decrypt failed".data
      | some (.plain _) =>
        .error "datastore decrypt failed".data) =
      .error "datastore decrypt failed".data
    rw [lookup_insert_self]
    show (if sha256 p = sha256 pbad then Except.ok (some v)
      else .error "datastore decrypt failed".data) =
      .error "datastore decrypt failed".data
    rw [if_neg (fun e => hne (sha256_inj p pbad e).symm)]

/-- C5 witness: the store round-trip theorem at a concrete store, key,
value, nonce, and a concrete wrong passphrase. -/
theorem store_encrypted_roundtrip_witness :
    SledDatastore.write ⟨[], some [1]⟩ "k".data [42] [7] =
      .ok (⟨insertKV "k".data (.cipher [7] (sha256 [1]) [42]) [], some [1]⟩,
           lookupKV [] "k".data) ∧
    SledDatastore.read
      ⟨insertKV "k".data (.cipher [7] (sha256 [1]) [42]) [], some [1]⟩
      "k".data = .ok (some [42]) ∧
    SledDatastore.read
      ⟨insertKV "k".data (.cipher [7] (sha256 [1]) [42]) [], some [2]⟩
      "k".data = .error "datastore decrypt failed".data :=
  store_encrypted_roundtrip [] [1] [2] "k".data [42] [7] (by decide)

theorem loadNotesAux_skips (db : SledDatastore) (ids : List Str)
    (h : ∀ u ∈ ids, db.readPlaintext u = none ∨
      ∃ r, db.readPlaintext u = some (.plain (.note r))) :
    loadNotesAux db ids = .ok (ids.filterMap (noteRecOf db)) := by
  induction ids with
  | nil => rfl
  | cons id rest ih =>
    have hrec := ih (fun u hu => h u (List.mem_cons_of_mem _ hu))
    rcases h id (List.mem_cons_self _ _) with hnone | ⟨r, hr⟩
    · rw [loadNotesAux, hnone, hrec, List.filterMap_cons]
      have : noteRecOf db id = none := by rw [noteRecOf, hnone]
      rw [this]
    · rw [loadNotesAux, hr, hrec, List.filterMap_cons]
      have : noteRecOf db id = some r := by rw [noteRecOf, hr]
      rw [this]

theorem loadAccountsAux_skips (db : SledDatastore) (ids : List Str)
    (h : ∀ u ∈ ids, db.readPlaintext u = none ∨
      ∃ r, db.readPlaintext u = some (.plain (.account r))) :
    loadAccountsAux db ids = .ok (ids.filterMap (accountRecOf db)) := by
  induction ids with
  | nil => rfl
  | cons id rest ih =>
    have hrec := ih (fun u hu => h u (List.mem_cons_of_mem _ hu))
    rcases h id (List.mem_cons_self _ _) with hnone | ⟨r, hr⟩
    · rw [loadAccountsAux, hnone, hrec, List.filterMap_cons]
      have : accountRecOf db id = none := by rw [accountRecOf, hnone]
      rw [this]
    · rw [loadAccountsAux, hr, hrec, List.filterMap_cons]
      have : accountRecOf db id = some r := by rw [accountRecOf, hr]
      rw [this]

/-- C9: when the `notes_ids` (resp. `account_ids`) index contains ids
whose records are absent, `load_notes` (resp. `load_accounts`) skips the
missing ids and returns `Ok` with the records of the remaining ids, in
index order. -/
theorem load_skips_missing_records :
    (∀ (db : SledDatastore) (ids : List Str),
      db.readPlaintext "notes_ids".data = some (.plain (.noteIds ids)) →
      (∀ u ∈ ids, db.readPlaintext u = none ∨
        ∃ r, db.readPlaintext u = some (.plain (.note r))) →
      ExecutionContext.loadNotes db = .ok (ids.filterMap (noteRecOf db))) ∧
    (∀ (db : SledDatastore) (ids : List Str),
      db.readPlaintext "account_ids".data =
        some (.plain (.accountIds ids)) →
      (∀ u ∈ ids, db.readPlaintext u = none ∨
        ∃ r, db.readPlaintext u = some (.plain (.account r))) →
      ExecutionContext.loadAccounts db =
        .ok (ids.filterMap (accountRecOf db))) := by
  constructor
  · intro db ids hids h
    rw [ExecutionContext.loadNotes, hids]
    exact loadNotesAux_skips db ids h
  · intro db ids hids h
    rw [ExecutionContext.loadAccounts, hids]
    exact loadAccountsAux_skips db ids h

/-- C9 witness: loading from a store whose indexes contain dangling ids
(`a`, `c`) returns `Ok` with just the surviving records. -/
theorem load_skips_missing_records_witness :
    ExecutionContext.loadNotes holeyDb =
      .ok (["a".data, "b".data].filterMap (noteRecOf holeyDb)) ∧
    ExecutionContext.loadAccounts holeyDb =
      .ok (["c".data, "d".data].filterMap (accountRecOf holeyDb)) :=
  ⟨load_skips_missing_records.1 holeyDb ["a".data, "b".data] (by decide)
      (by
        intro u hu
        simp only [List.mem_cons, List.not_mem_nil, or_false] at hu
        rcases hu with rfl | rfl
        · exact Or.inl (by decide)
        · exact Or.inr ⟨⟨"b".data, "n".data, false, "v".data⟩, by decide⟩),
   load_skips_missing_records.2 holeyDb ["c".data, "d".data] (by decide)
      (by
        intro u hu
        simp only [List.mem_cons, List.not_mem_nil, or_false] at hu
        rcases hu with rfl | rfl
        · exact Or.inl (by decide)
        · exact Or.inr ⟨⟨"d".data, "m".data, "addr".data, true⟩, by decide⟩)⟩

theorem hexEncode_replicate_zero (n : ℕ) :
    hexEncodeChars (List.replicate n 0) = List.replicate (2 * n) '0' := by
  induction n with
  | zero => rfl
  | succ n ih =>
    rw [List.replicate_succ]
    have hc : hexEncodeChars (0 :: List.replicate n 0) =
        hexDigitChar 0 :: hexDigitChar 0 :: hexEncodeChars (List.replicate n 0) := rfl
    rw [hc, ih]
    have h2 : 2 * (n + 1) = 2 * n + 1 + 1 := by ring
    rw [h2, List.replicate_succ, List.replicate_succ]
    rfl

theorem importNote_eq (accs : List AccountRaw) (notes0 : List NoteRaw)
    (sled0 : List (Str × DBVal)) (p : List ℕ) (aliasName : Str)
    (note : Note) (uuid : Str) (nonce : List ℕ) (ids0 : List Str)
    (hids : lookupKV sled0 "notes_ids".data = some (.plain (.noteIds ids0)) ∨
      (lookupKV sled0 "notes_ids".data = none ∧ ids0 = []))
    (hu : uuid ≠ "notes_ids".data)
    (hus : uuid ++ "_secret".data ≠ "notes_ids".data) :
    ExecutionContext.importNote ⟨accs, notes0, ⟨sled0, some p⟩⟩
        aliasName note uuid nonce =
      (⟨accs, notes0,
        ⟨insertKV "notes_ids".data (.plain (.noteIds (ids0 ++ [uuid])))
          (insertKV (uuid ++ "_secret".data)
            (.cipher nonce (sha256 p) note.secret)
            (insertKV uuid (.plain (.note (noteRawFor aliasName note uuid)))
              sled0)),
         some p⟩⟩, .ok uuid) := by
  simp only [ExecutionContext.importNote, SledDatastore.write,
    SledDatastore.writePlaintext, SledDatastore.readPlaintext]
  rw [lookup_insert_other _ _ _ _ (Ne.symm hus),
    lookup_insert_other _ _ _ _ (Ne.symm hu)]
  rcases hids with hi | ⟨hi, rfl⟩
  · rw [hi]
    rfl
  · rw [hi]
    rfl

theorem ne_append_secret (uuid : Str) : uuid ≠ uuid ++ "_secret".data := by
  intro h
  have hlen := congrArg List.length h
  simp at hlen

theorem zeroizedNote_wf (n : Note) (h : n.wf) : (zeroizedNote n).wf := by
  obtain ⟨htok, hamt, h2, h3, he, hw, hd, hslen, hsval⟩ := h
  refine ⟨htok, hamt, h2, h3, he, hw, hd, ?_, ?_⟩
  · show (n.secret.map (fun _ => 0)).length = 64
    rw [List.length_map, hslen]
  · intro b hb
    rcases List.mem_map.mp hb with ⟨x, -, rfl⟩
    norm_num

/-- C10: `import_note` stores the metadata record with the note's secret
zeroized — its serialized note string carries an all-zero secret field —
while the real 64-byte secret is stored only under the encrypted
`<uuid>_secret` key; `decrypt_note` parses the stored string and
overwrites its secret with the decrypted bytes, reconstructing the
original note exactly. -/
theorem import_note_zeroizes_and_decrypt_restores (ctx : ExecutionContext)
    (aliasName : Str) (note : Note) (uuid : Str) (nonce p : List ℕ)
    (ids0 : List Str) (hwf : note.wf) (hsec : ctx.db.secret = some p)
    (hids : ctx.db.readPlaintext "notes_ids".data =
        some (.plain (.noteIds ids0)) ∨
      (ctx.db.readPlaintext "notes_ids".data = none ∧ ids0 = []))
    (hu : uuid ≠ "notes_ids".data)
    (hus : uuid ++ "_secret".data ≠ "notes_ids".data) :
    (ctx.importNote aliasName note uuid nonce).2 = .ok uuid ∧
    (ctx.importNote aliasName note uuid nonce).1.db.readPlaintext uuid =
      some (.plain (.note (noteRawFor aliasName note uuid))) ∧
    (splitOnChar ':' (noteRawFor aliasName note uuid).value).getD 12 [] =
      List.replicate 128 '0' ∧
    (ctx.importNote aliasName note uuid nonce).1.db.readPlaintext
        (uuid ++ "_secret".data) =
      some (.cipher nonce (sha256 p) note.secret) ∧
    (ctx.importNote aliasName note uuid nonce).1.decryptNote uuid =
      .ok note := by
  obtain ⟨accs, notes0, db0⟩ := ctx
  obtain ⟨sled0, sec⟩ := db0
  have hsec2 : sec = some p := hsec
  subst hsec2
  have hzwf := zeroizedNote_wf note hwf
  obtain ⟨htok, hamt, h2, h3, he, hw, hd, hslen, hsval⟩ := hwf
  obtain ⟨hztok, hzamt, -, -, -, -, -, hzlen, hzval⟩ := hzwf
  have husuu : uuid ≠ uuid ++ "_secret".data := ne_append_secret uuid
  have hmain := importNote_eq accs notes0 sled0 p aliasName note uuid nonce
    ids0 hids hu hus
  have hrec : lookupKV (insertKV "notes_ids".data (.plain (.noteIds (ids0 ++ [uuid])))
        (insertKV (uuid ++ "_secret".data)
          (.cipher nonce (sha256 p) note.secret)
          (insertKV uuid (.plain (.note (noteRawFor aliasName note uuid)))
            sled0))) uuid =
      some (.plain (.note (noteRawFor aliasName note uuid))) := by
    rw [lookup_insert_other _ _ _ _ hu, lookup_insert_other _ _ _ _ husuu,
      lookup_insert_self]
  have hciph : lookupKV (insertKV "notes_ids".data (.plain (.noteIds (ids0 ++ [uuid])))
        (insertKV (uuid ++ "_secret".data)
          (.cipher nonce (sha256 p) note.secret)
          (insertKV uuid (.plain (.note (noteRawFor aliasName note uuid)))
            sled0))) (uuid ++ "_secret".data) =
      some (.cipher nonce (sha256 p) note.secret) := by
    rw [lookup_insert_other _ _ _ _ hus, lookup_insert_self]
  have hread2 : SledDatastore.read ⟨insertKV "notes_ids".data (.plain (.noteIds (ids0 ++ [uuid])))
        (insertKV (uuid ++ "_secret".data)
          (.cipher nonce (sha256 p) note.secret)
          (insertKV uuid (.plain (.note (noteRawFor aliasName note uuid)))
            sled0)), some p⟩ (uuid ++ "_secret".data) =
      .ok (some note.secret) := by
    show (match lookupKV (insertKV "notes_ids".data (.plain (.noteIds (ids0 ++ [uuid])))
        (insertKV (uuid ++ "_secret".data)
          (.cipher nonce (sha256 p) note.secret)
          (insertKV uuid (.plain (.note (noteRawFor aliasName note uuid)))
            sled0))) (uuid ++ "_secret".data) with
      | none => Except.ok none
      | some (.cipher _ k2 msg) =>
        if k2 = sha256 p then .ok (some msg)
        else .error "datastore decrypt failed".data
      | some (.plain _) =>
        .error "datastore decrypt failed".data) = .ok (some note.secret)
    rw [hciph]
    show (if sha256 p = sha256 p then Except.ok (some note.secret)
      else .error "datastore decrypt failed".data) = .ok (some note.secret)
    rw [if_pos rfl]
  have hparse : Note.fromChars (noteRawFor aliasName note uuid).value =
      .ok (zeroizedNote note) := Note.roundtrip_wf _
    ⟨hztok, hzamt, h2, h3, he, hw, hd, hzlen, hzval⟩
  rw [hmain]
  refine ⟨rfl, hrec, ?_, hciph, ?_⟩
  · show (splitOnChar ':' (Note.toChars (zeroizedNote note))).getD 12 [] =
      List.replicate 128 '0'
    rw [splitOnChar_toChars _ hztok hzamt hzval]
    show hexEncodeChars (zeroizedNote note).secret = List.replicate 128 '0'
    have hzs : (zeroizedNote note).secret = List.replicate 64 0 := by
      show note.secret.map (fun _ => 0) = List.replicate 64 0
      rw [List.map_const', hslen]
    rw [hzs, hexEncode_replicate_zero]
  · show (match lookupKV (insertKV "notes_ids".data (.plain (.noteIds (ids0 ++ [uuid])))
        (insertKV (uuid ++ "_secret".data)
          (.cipher nonce (sha256 p) note.secret)
          (insertKV uuid (.plain (.note (noteRawFor aliasName note uuid)))
            sled0))) uuid with
      | some (.plain (.note raw)) =>
        (match SledDatastore.read ⟨insertKV "notes_ids".data (.plain (.noteIds (ids0 ++ [uuid])))
        (insertKV (uuid ++ "_secret".data)
          (.cipher nonce (sha256 p) note.secret)
          (insertKV uuid (.plain (.note (noteRawFor aliasName note uuid)))
            sled0)), some p⟩ (uuid ++ "_secret".data) with
         | .error _ => CtxResult.err
         | .ok none => CtxResult.err
         | .ok (some secretBytes) =>
           if secretBytes.length = 64 then
             match Note.fromChars raw.value with
             | .ok nt => CtxResult.ok { nt with secret := secretBytes }
             | .err _ => CtxResult.err
             | .panicked => CtxResult.panicked
           else CtxResult.err)
      | some _ => CtxResult.err
      | none => CtxResult.err) = CtxResult.ok note
    rw [hrec]
    show (match SledDatastore.read ⟨insertKV "notes_ids".data (.plain (.noteIds (ids0 ++ [uuid])))
        (insertKV (uuid ++ "_secret".data)
          (.cipher nonce (sha256 p) note.secret)
          (insertKV uuid (.plain (.note (noteRawFor aliasName note uuid)))
            sled0)), some p⟩ (uuid ++ "_secret".data) with
      | .error _ => CtxResult.err
      | .ok none => CtxResult.err
      | .ok (some secretBytes) =>
        if secretBytes.length = 64 then
          match Note.fromChars (noteRawFor aliasName note uuid).value with
          | .ok nt => CtxResult.ok { nt with secret := secretBytes }
          | .err _ => CtxResult.err
          | .panicked => CtxResult.panicked
        else CtxResult.err) = CtxResult.ok note
    rw [hread2]
    show (if note.secret.length = 64 then
      (match Note.fromChars (noteRawFor aliasName note uuid).value with
       | .ok nt => CtxResult.ok { nt with secret := note.secret }
       | .err _ => CtxResult.err
       | .panicked => CtxResult.panicked)
      else CtxResult.err) = CtxResult.ok note
    rw [if_pos hslen, hparse]
    rfl

/-- C10 witness: importing then decrypting a concrete valid note in a
fresh store with a set secret. -/
theorem import_note_zeroizes_and_decrypt_restores_witness :
    ((⟨[], [], ⟨[], some [1]⟩⟩ : ExecutionContext).importNote "a".data
        sampleNote "u1".data [7]).2 = .ok "u1".data ∧
    ((⟨[], [], ⟨[], some [1]⟩⟩ : ExecutionContext).importNote "a".data
        sampleNote "u1".data [7]).1.db.readPlaintext "u1".data =
      some (.plain (.note (noteRawFor "a".data sampleNote "u1".data))) ∧
    (splitOnChar ':' (noteRawFor "a".data sampleNote "u1".data).value).getD
        12 [] = List.replicate 128 '0' ∧
    ((⟨[], [], ⟨[], some [1]⟩⟩ : ExecutionContext).importNote "a".data
        sampleNote "u1".data [7]).1.db.readPlaintext
        ("u1".data ++ "_secret".data) =
      some (.cipher [7] (sha256 [1]) sampleNote.secret) ∧
    ((⟨[], [], ⟨[], some [1]⟩⟩ : ExecutionContext).importNote "a".data
        sampleNote "u1".data [7]).1.decryptNote "u1".data =
      .ok sampleNote :=
  import_note_zeroizes_and_decrypt_restores ⟨[], [], ⟨[], some [1]⟩⟩
    "a".data sampleNote "u1".data [7] [1] [] (by decide) rfl
    (Or.inr ⟨rfl, rfl⟩) (by decide) (by decide)

theorem isNoteVal_mem_keys (s : List (Str × DBVal)) (k : Str)
    (h : isNoteVal (lookupKV s k) = true) : k ∈ s.map Prod.fst := by
  rcases hv : lookupKV s k with - | v
  · rw [hv] at h
    simp [isNoteVal] at h
  · exact lookup_mem_keys s k v hv

theorem isAccountVal_mem_keys (s : List (Str × DBVal)) (k : Str)
    (h : isAccountVal (lookupKV s k) = true) : k ∈ s.map Prod.fst := by
  rcases hv : lookupKV s k with - | v
  · rw [hv] at h
    simp [isAccountVal] at h
  · exact lookup_mem_keys s k v hv

theorem generateAccount_eq (accs : List AccountRaw) (notes0 : List NoteRaw)
    (sled0 : List (Str × DBVal)) (p : List ℕ) (aliasName uuid address : Str)
    (seed nonce : List ℕ) (ids0 : List Str)
    (hids : lookupKV sled0 "account_ids".data =
        some (.plain (.accountIds ids0)) ∨
      (lookupKV sled0 "account_ids".data = none ∧ ids0 = []))
    (hu : uuid ≠ "account_ids".data)
    (hus : uuid ++ "_seed".data ≠ "account_ids".data) :
    ExecutionContext.generateAccount ⟨accs, notes0, ⟨sled0, some p⟩⟩
        aliasName uuid address seed nonce =
      (⟨accs, notes0,
        ⟨insertKV "account_ids".data
          (.plain (.accountIds (ids0 ++ [uuid])))
          (insertKV (uuid ++ "_seed".data) (.cipher nonce (sha256 p) seed)
            (insertKV uuid
              (.plain (.account
                (accountRawFor aliasName uuid address accs.isEmpty)))
              sled0)),
         some p⟩⟩, .ok address) := by
  simp only [ExecutionContext.generateAccount, SledDatastore.write,
    SledDatastore.writePlaintext, SledDatastore.readPlaintext]
  rw [lookup_insert_other _ _ _ _ (Ne.symm hus),
    lookup_insert_other _ _ _ _ (Ne.symm hu)]
  rcases hids with hi | ⟨hi, rfl⟩
  · rw [hi]
    rfl
  · rw [hi]
    rfl

theorem ne_append_seed (uuid : Str) : uuid ≠ uuid ++ "_seed".data := by
  intro h
  have hlen := congrArg List.length h
  simp at hlen

theorem importNote_preserves (accs : List AccountRaw)
    (notes0 : List NoteRaw) (sled0 : List (Str × DBVal)) (p : List ℕ)
    (aliasName : Str) (note : Note) (uuid : Str) (nonce : List ℕ)
    (hex : StoreExact ⟨sled0, some p⟩)
    (hty : notesIdsTyped ⟨sled0, some p⟩)
    (hfr1 : lookupKV sled0 uuid = none)
    (hfr2 : lookupKV sled0 (uuid ++ "_secret".data) = none)
    (hu1 : uuid ≠ "notes_ids".data) (hu2 : uuid ≠ "account_ids".data)
    (hs1 : uuid ++ "_secret".data ≠ "notes_ids".data)
    (hs2 : uuid ++ "_secret".data ≠ "account_ids".data) :
    StoreExact (ExecutionContext.importNote ⟨accs, notes0, ⟨sled0, some p⟩⟩
      aliasName note uuid nonce).1.db ∧
    noteIdsOf (ExecutionContext.importNote ⟨accs, notes0, ⟨sled0, some p⟩⟩
        aliasName note uuid nonce).1.db =
      noteIdsOf ⟨sled0, some p⟩ ++ [uuid] ∧
    accountIdsOf (ExecutionContext.importNote ⟨accs, notes0,
        ⟨sled0, some p⟩⟩ aliasName note uuid nonce).1.db =
      accountIdsOf ⟨sled0, some p⟩ := by
  obtain ⟨⟨hN1, hN2⟩, ⟨hA1, hA2⟩⟩ := hex
  simp only [notesIdsTyped, SledDatastore.readPlaintext] at hN1 hN2 hA1 hA2 hty
  have husuu : uuid ≠ uuid ++ "_secret".data := ne_append_secret uuid
  have hids : lookupKV sled0 "notes_ids".data =
      some (.plain (.noteIds (noteIdsOf ⟨sled0, some p⟩))) ∨
      (lookupKV sled0 "notes_ids".data = none ∧
        noteIdsOf ⟨sled0, some p⟩ = []) := by
    rcases hty with h | h
    · exact Or.inl h
    · refine Or.inr ⟨h, ?_⟩
      rw [noteIdsOf]
      simp only [SledDatastore.readPlaintext]
      rw [h]
  have hmain := importNote_eq accs notes0 sled0 p aliasName note uuid nonce
    (noteIdsOf ⟨sled0, some p⟩) hids hu1 hs1
  rw [hmain]
  have hnoteval_ids : isNoteVal (lookupKV sled0 "notes_ids".data) = false := by
    rcases hty with h | h <;> rw [h] <;> rfl
  have haccval_ids : isAccountVal (lookupKV sled0 "notes_ids".data) = false := by
    rcases hty with h | h <;> rw [h] <;> rfl
  have hpass : ∀ k : Str, k ≠ "notes_ids".data → k ≠ uuid →
      k ≠ uuid ++ "_secret".data →
      lookupKV (insertKV "notes_ids".data
      (.plain (.noteIds (noteIdsOf ⟨sled0, some p⟩ ++ [uuid])))
      (insertKV (uuid ++ "_secret".data)
        (.cipher nonce (sha256 p) note.secret)
        (insertKV uuid (.plain (.note (noteRawFor aliasName note uuid)))
          sled0))) k = lookupKV sled0 k := by
    intro k hk1 hk2 hk3
    rw [lookup_insert_other _ _ _ _ hk1, lookup_insert_other _ _ _ _ hk3,
      lookup_insert_other _ _ _ _ hk2]
  have hNewIds : noteIdsOf (⟨insertKV "notes_ids".data
      (.plain (.noteIds (noteIdsOf ⟨sled0, some p⟩ ++ [uuid])))
      (insertKV (uuid ++ "_secret".data)
        (.cipher nonce (sha256 p) note.secret)
        (insertKV uuid (.plain (.note (noteRawFor aliasName note uuid)))
          sled0)), some p⟩ : SledDatastore) =
      noteIdsOf ⟨sled0, some p⟩ ++ [uuid] := by
    rw [noteIdsOf]
    simp only [SledDatastore.readPlaintext]
    rw [lookup_insert_self]
  have hAccIds : accountIdsOf (⟨insertKV "notes_ids".data
      (.plain (.noteIds (noteIdsOf ⟨sled0, some p⟩ ++ [uuid])))
      (insertKV (uuid ++ "_secret".data)
        (.cipher nonce (sha256 p) note.secret)
        (insertKV uuid (.plain (.note (noteRawFor aliasName note uuid)))
          sled0)), some p⟩ : SledDatastore) =
      accountIdsOf ⟨sled0, some p⟩ := by
    rw [accountIdsOf, accountIdsOf]
    simp only [SledDatastore.readPlaintext]
    rw [hpass _ (by decide) (Ne.symm hu2) (Ne.symm hs2)]
  refine ⟨⟨⟨?_, ?_⟩, ⟨?_, ?_⟩⟩, hNewIds, hAccIds⟩
  · -- every uuid in the new notes index has a note record
    intro u hu'
    rw [hNewIds] at hu'
    simp only [SledDatastore.readPlaintext]
    rcases List.mem_append.mp hu' with huL | huR
    · have hval := hN1 u huL
      have hne1 : u ≠ "notes_ids".data := by
        intro e
        rw [e, hnoteval_ids] at hval
        exact Bool.noConfusion hval
      have hne2 : u ≠ uuid := by
        intro e
        rw [e, hfr1] at hval
        exact Bool.noConfusion hval
      have hne3 : u ≠ uuid ++ "_secret".data := by
        intro e
        rw [e, hfr2] at hval
        exact Bool.noConfusion hval
      rw [hpass u hne1 hne2 hne3]
      exact hval
    · have he : u = uuid := by simpa using huR
      subst he
      rw [lookup_insert_other _ _ _ _ hu1, lookup_insert_other _ _ _ _ husuu,
        lookup_insert_self]
      rfl
  · -- every note record in the new store is in the new notes index
    intro k hk hnote
    simp only [SledDatastore.readPlaintext] at hnote
    rw [hNewIds]
    by_cases hk1 : k = "notes_ids".data
    · subst hk1
      rw [lookup_insert_self] at hnote
      exact absurd hnote (by simp [isNoteVal])
    by_cases hk2 : k = uuid
    · subst hk2
      simp
    by_cases hk3 : k = uuid ++ "_secret".data
    · subst hk3
      rw [lookup_insert_other _ _ _ _ hs1, lookup_insert_self] at hnote
      exact absurd hnote (by simp [isNoteVal])
    · rw [hpass k hk1 hk2 hk3] at hnote
      exact List.mem_append_left _
        (hN2 k (isNoteVal_mem_keys sled0 k hnote) hnote)
  · -- every uuid in the account index still has an account record
    intro u hu'
    rw [hAccIds] at hu'
    have hval := hA1 u hu'
    have hne1 : u ≠ "notes_ids".data := by
      intro e
      rw [e, haccval_ids] at hval
      exact Bool.noConfusion hval
    have hne2 : u ≠ uuid := by
      intro e
      rw [e, hfr1] at hval
      exact Bool.noConfusion hval
    have hne3 : u ≠ uuid ++ "_secret".data := by
      intro e
      rw [e, hfr2] at hval
      exact Bool.noConfusion hval
    simp only [SledDatastore.readPlaintext]
    rw [hpass u hne1 hne2 hne3]
    exact hval
  · -- every account record in the new store is still in the account index
    intro k hk hacc
    simp only [SledDatastore.readPlaintext] at hacc
    rw [hAccIds]
    by_cases hk1 : k = "notes_ids".data
    · subst hk1
      rw [lookup_insert_self] at hacc
      exact absurd hacc (by simp [isAccountVal])
    by_cases hk2 : k = uuid
    · subst hk2
      rw [lookup_insert_other _ _ _ _ hu1, lookup_insert_other _ _ _ _ husuu,
        lookup_insert_self] at hacc
      exact absurd hacc (by simp [isAccountVal])
    by_cases hk3 : k = uuid ++ "_secret".data
    · subst hk3
      rw [lookup_insert_other _ _ _ _ hs1, lookup_insert_self] at hacc
      exact absurd hacc (by simp [isAccountVal])
    · rw [hpass k hk1 hk2 hk3] at hacc
      exact hA2 k (isAccountVal_mem_keys sled0 k hacc) hacc

theorem generateAccount_preserves (accs : List AccountRaw)
    (notes0 : List NoteRaw) (sled0 : List (Str × DBVal)) (p : List ℕ)
    (aliasName uuid address : Str) (seed nonce : List ℕ)
    (hex : StoreExact ⟨sled0, some p⟩)
    (hty : accountIdsTyped ⟨sled0, some p⟩)
    (hfr1 : lookupKV sled0 uuid = none)
    (hfr2 : lookupKV sled0 (uuid ++ "_seed".data) = none)
    (hu1 : uuid ≠ "account_ids".data) (hu2 : uuid ≠ "notes_ids".data)
    (hs1 : uuid ++ "_seed".data ≠ "account_ids".data)
    (hs2 : uuid ++ "_seed".data ≠ "notes_ids".data) :
    StoreExact (ExecutionContext.generateAccount
      ⟨accs, notes0, ⟨sled0, some p⟩⟩ aliasName uuid address seed
      nonce).1.db ∧
    accountIdsOf (ExecutionContext.generateAccount
        ⟨accs, notes0, ⟨sled0, some p⟩⟩ aliasName uuid address seed
        nonce).1.db =
      accountIdsOf ⟨sled0, some p⟩ ++ [uuid] ∧
    noteIdsOf (ExecutionContext.generateAccount
        ⟨accs, notes0, ⟨sled0, some p⟩⟩ aliasName uuid address seed
        nonce).1.db =
      noteIdsOf ⟨sled0, some p⟩ := by
  obtain ⟨⟨hN1, hN2⟩, ⟨hA1, hA2⟩⟩ := hex
  simp only [accountIdsTyped, SledDatastore.readPlaintext]
    at hN1 hN2 hA1 hA2 hty
  have husuu : uuid ≠ uuid ++ "_seed".data := ne_append_seed uuid
  have hids : lookupKV sled0 "account_ids".data =
      some (.plain (.accountIds (accountIdsOf ⟨sled0, some p⟩))) ∨
      (lookupKV sled0 "account_ids".data = none ∧
        accountIdsOf ⟨sled0, some p⟩ = []) := by
    rcases hty with h | h
    · exact Or.inl h
    · refine Or.inr ⟨h, ?_⟩
      rw [accountIdsOf]
      simp only [SledDatastore.readPlaintext]
      rw [h]
  have hmain := generateAccount_eq accs notes0 sled0 p aliasName uuid
    address seed nonce (accountIdsOf ⟨sled0, some p⟩) hids hu1 hs1
  rw [hmain]
  have haccval_ids : isAccountVal (lookupKV sled0 "account_ids".data) =
      false := by
    rcases hty with h | h <;> rw [h] <;> rfl
  have hnoteval_ids : isNoteVal (lookupKV sled0 "account_ids".data) =
      false := by
    rcases hty with h | h <;> rw [h] <;> rfl
  have hpass : ∀ k : Str, k ≠ "account_ids".data → k ≠ uuid →
      k ≠ uuid ++ "_seed".data →
      lookupKV (insertKV "account_ids".data
      (.plain (.accountIds (accountIdsOf ⟨sled0, some p⟩ ++ [uuid])))
      (insertKV (uuid ++ "_seed".data)
        (.cipher nonce (sha256 p) seed)
        (insertKV uuid
          (.plain (.account (accountRawFor aliasName uuid address
            accs.isEmpty)))
          sled0))) k = lookupKV sled0 k := by
    intro k hk1 hk2 hk3
    rw [lookup_insert_other _ _ _ _ hk1, lookup_insert_other _ _ _ _ hk3,
      lookup_insert_other _ _ _ _ hk2]
  have hNewIds : accountIdsOf (⟨insertKV "account_ids".data
      (.plain (.accountIds (accountIdsOf ⟨sled0, some p⟩ ++ [uuid])))
      (insertKV (uuid ++ "_seed".data)
        (.cipher nonce (sha256 p) seed)
        (insertKV uuid
          (.plain (.account (accountRawFor aliasName uuid address
            accs.isEmpty)))
          sled0)), some p⟩ : SledDatastore) =
      accountIdsOf ⟨sled0, some p⟩ ++ [uuid] := by
    rw [accountIdsOf]
    simp only [SledDatastore.readPlaintext]
    rw [lookup_insert_self]
  have hNIds : noteIdsOf (⟨insertKV "account_ids".data
      (.plain (.accountIds (accountIdsOf ⟨sled0, some p⟩ ++ [uuid])))
      (insertKV (uuid ++ "_seed".data)
        (.cipher nonce (sha256 p) seed)
        (insertKV uuid
          (.plain (.account (accountRawFor aliasName uuid address
            accs.isEmpty)))
          sled0)), some p⟩ : SledDatastore) =
      noteIdsOf ⟨sled0, some p⟩ := by
    rw [noteIdsOf, noteIdsOf]
    simp only [SledDatastore.readPlaintext]
    rw [hpass _ (by decide) (Ne.symm hu2) (Ne.symm hs2)]
  refine ⟨⟨⟨?_, ?_⟩, ⟨?_, ?_⟩⟩, hNewIds, hNIds⟩
  · -- every uuid in the notes index still has a note record
    intro u hu'
    rw [hNIds] at hu'
    have hval := hN1 u hu'
    have hne1 : u ≠ "account_ids".data := by
      intro e
      rw [e, hnoteval_ids] at hval
      exact Bool.noConfusion hval
    have hne2 : u ≠ uuid := by
      intro e
      rw [e, hfr1] at hval
      exact Bool.noConfusion hval
    have hne3 : u ≠ uuid ++ "_seed".data := by
      intro e
      rw [e, hfr2] at hval
      exact Bool.noConfusion hval
    simp only [SledDatastore.readPlaintext]
    rw [hpass u hne1 hne2 hne3]
    exact hval
  · -- every note record in the new store is still in the notes index
    intro k hk hnote
    simp only [SledDatastore.readPlaintext] at hnote
    rw [hNIds]
    by_cases hk1 : k = "account_ids".data
    · subst hk1
      rw [lookup_insert_self] at hnote
      exact absurd hnote (by simp [isNoteVal])
    by_cases hk2 : k = uuid
    · subst hk2
      rw [lookup_insert_other _ _ _ _ hu1, lookup_insert_other _ _ _ _ husuu,
        lookup_insert_self] at hnote
      exact absurd hnote (by simp [isNoteVal])
    by_cases hk3 : k = uuid ++ "_seed".data
    · subst hk3
      rw [lookup_insert_other _ _ _ _ hs1, lookup_insert_self] at hnote
      exact absurd hnote (by simp [isNoteVal])
    · rw [hpass k hk1 hk2 hk3] at hnote
      exact hN2 k (isNoteVal_mem_keys sled0 k hnote) hnote
  · -- every uuid in the new account index has an account record
    intro u hu'
    rw [hNewIds] at hu'
    simp only [SledDatastore.readPlaintext]
    rcases List.mem_append.mp hu' with huL | huR
    · have hval := hA1 u huL
      have hne1 : u ≠ "account_ids".data := by
        intro e
        rw [e, haccval_ids] at hval
        exact Bool.noConfusion hval
      have hne2 : u ≠ uuid := by
        intro e
        rw [e, hfr1] at hval
        exact Bool.noConfusion hval
      have hne3 : u ≠ uuid ++ "_seed".data := by
        intro e
        rw [e, hfr2] at hval
        exact Bool.noConfusion hval
      rw [hpass u hne1 hne2 hne3]
      exact hval
    · have he : u = uuid := by simpa using huR
      subst he
      rw [lookup_insert_other _ _ _ _ hu1, lookup_insert_other _ _ _ _ husuu,
        lookup_insert_self]
      rfl
  · -- every account record in the new store is in the new account index
    intro k hk hacc
    simp only [SledDatastore.readPlaintext] at hacc
    rw [hNewIds]
    by_cases hk1 : k = "account_ids".data
    · subst hk1
      rw [lookup_insert_self] at hacc
      exact absurd hacc (by simp [isAccountVal])
    by_cases hk2 : k = uuid
    · subst hk2
      simp
    by_cases hk3 : k = uuid ++ "_seed".data
    · subst hk3
      rw [lookup_insert_other _ _ _ _ hs1, lookup_insert_self] at hacc
      exact absurd hacc (by simp [isAccountVal])
    · rw [hpass k hk1 hk2 hk3] at hacc
      exact List.mem_append_left _
        (hA2 k (isAccountVal_mem_keys sled0 k hacc) hacc)

theorem markNote_preserves (accs : List AccountRaw) (notes0 : List NoteRaw)
    (sled0 : List (Str × DBVal)) (sec : Option (List ℕ)) (uuid : Str)
    (hex : StoreExact ⟨sled0, sec⟩)
    (hu1 : uuid ≠ "notes_ids".data) (hu2 : uuid ≠ "account_ids".data) :
    StoreExact (ExecutionContext.markNoteAsUsed
      ⟨accs, notes0, ⟨sled0, sec⟩⟩ uuid).1.db ∧
    noteIdsOf (ExecutionContext.markNoteAsUsed
        ⟨accs, notes0, ⟨sled0, sec⟩⟩ uuid).1.db = noteIdsOf ⟨sled0, sec⟩ ∧
    accountIdsOf (ExecutionContext.markNoteAsUsed
        ⟨accs, notes0, ⟨sled0, sec⟩⟩ uuid).1.db =
      accountIdsOf ⟨sled0, sec⟩ := by
  obtain ⟨⟨hN1, hN2⟩, ⟨hA1, hA2⟩⟩ := hex
  simp only [SledDatastore.readPlaintext] at hN1 hN2 hA1 hA2
  rcases hv : lookupKV sled0 uuid with - | v
  · have hop : ExecutionContext.markNoteAsUsed
        ⟨accs, notes0, ⟨sled0, sec⟩⟩ uuid =
        (⟨accs, notes0, ⟨sled0, sec⟩⟩, .err) := by
      simp only [ExecutionContext.markNoteAsUsed, SledDatastore.readPlaintext]
      rw [hv]
    rw [hop]
    exact ⟨⟨⟨hN1, hN2⟩, ⟨hA1, hA2⟩⟩, rfl, rfl⟩
  · by_cases hnr : ∃ raw, v = DBVal.plain (PVal.note raw)
    · obtain ⟨raw, rfl⟩ := hnr
      have hop : ExecutionContext.markNoteAsUsed
          ⟨accs, notes0, ⟨sled0, sec⟩⟩ uuid =
          (⟨accs, notes0,
            ⟨insertKV uuid (.plain (.note { raw with used := true })) sled0,
             sec⟩⟩, .ok ()) := by
        simp only [ExecutionContext.markNoteAsUsed,
          SledDatastore.readPlaintext, SledDatastore.writePlaintext]
        rw [hv]
      rw [hop]
      have hNIds : noteIdsOf
          (⟨insertKV uuid (.plain (.note { raw with used := true })) sled0,
            sec⟩ : SledDatastore) = noteIdsOf ⟨sled0, sec⟩ := by
        rw [noteIdsOf, noteIdsOf]
        simp only [SledDatastore.readPlaintext]
        rw [lookup_insert_other _ _ _ _ (Ne.symm hu1)]
      have hAIds : accountIdsOf
          (⟨insertKV uuid (.plain (.note { raw with used := true })) sled0,
            sec⟩ : SledDatastore) = accountIdsOf ⟨sled0, sec⟩ := by
        rw [accountIdsOf, accountIdsOf]
        simp only [SledDatastore.readPlaintext]
        rw [lookup_insert_other _ _ _ _ (Ne.symm hu2)]
      refine ⟨⟨⟨?_, ?_⟩, ⟨?_, ?_⟩⟩, hNIds, hAIds⟩
      · intro u hu'
        rw [hNIds] at hu'
        simp only [SledDatastore.readPlaintext]
        by_cases he : u = uuid
        · subst he
          rw [lookup_insert_self]
          rfl
        · rw [lookup_insert_other _ _ _ _ he]
          exact hN1 u hu'
      · intro k hk hnote
        simp only [SledDatastore.readPlaintext] at hnote
        rw [hNIds]
        by_cases he : k = uuid
        · subst he
          exact hN2 k (lookup_mem_keys sled0 k _ hv) (by rw [hv]; rfl)
        · rw [lookup_insert_other _ _ _ _ he] at hnote
          exact hN2 k (isNoteVal_mem_keys sled0 k hnote) hnote
      · intro u hu'
        rw [hAIds] at hu'
        have hval := hA1 u hu'
        have he : u ≠ uuid := by
          intro e
          rw [e, hv] at hval
          exact Bool.noConfusion hval
        simp only [SledDatastore.readPlaintext]
        rw [lookup_insert_other _ _ _ _ he]
        exact hval
      · intro k hk hacc
        simp only [SledDatastore.readPlaintext] at hacc
        rw [hAIds]
        by_cases he : k = uuid
        · subst he
          rw [lookup_insert_self] at hacc
          exact absurd hacc (by simp [isAccountVal])
        · rw [lookup_insert_other _ _ _ _ he] at hacc
          exact hA2 k (isAccountVal_mem_keys sled0 k hacc) hacc
    · have hop : ExecutionContext.markNoteAsUsed
          ⟨accs, notes0, ⟨sled0, sec⟩⟩ uuid =
          (⟨accs, notes0, ⟨sled0, sec⟩⟩, .err) := by
        simp only [ExecutionContext.markNoteAsUsed,
          SledDatastore.readPlaintext]
        rw [hv]
        rcases v with pv | ⟨n, k, m⟩
        · rcases pv with raw | r | i | i
          · exact absurd ⟨raw, rfl⟩ hnr
          · rfl
          · rfl
          · rfl
        · rfl
      rw [hop]
      exact ⟨⟨⟨hN1, hN2⟩, ⟨hA1, hA2⟩⟩, rfl, rfl⟩

theorem forgetNote_dangling (accs : List AccountRaw) (notes0 : List NoteRaw)
    (sled0 : List (Str × DBVal)) (sec : Option (List ℕ)) (uuid : Str)
    (hu1 : uuid ≠ "notes_ids".data)
    (hs1 : uuid ++ "_secret".data ≠ "notes_ids".data) :
    noteIdsOf (ExecutionContext.forgetNote ⟨accs, notes0, ⟨sled0, sec⟩⟩
      uuid).db = noteIdsOf ⟨sled0, sec⟩ ∧
    (ExecutionContext.forgetNote ⟨accs, notes0, ⟨sled0, sec⟩⟩
      uuid).db.readPlaintext uuid = none := by
  constructor
  · show noteIdsOf (⟨eraseKey (uuid ++ "_secret".data)
        (eraseKey uuid sled0), sec⟩ : SledDatastore) = _
    rw [noteIdsOf, noteIdsOf]
    simp only [SledDatastore.readPlaintext]
    rw [lookup_erase_other _ _ _ (Ne.symm hs1),
      lookup_erase_other _ _ _ (Ne.symm hu1)]
  · show lookupKV (eraseKey (uuid ++ "_secret".data)
        (eraseKey uuid sled0)) uuid = none
    rw [lookup_erase_other _ _ _ (ne_append_secret uuid),
      lookup_erase_self]

/-- C6 (amended): the record-creating operations — `import_note`,
`generate_note`, `generate_account`, `import_account` — and
`mark_note_as_used` keep both id indexes enumerating exactly the uuids of
the live records (given the freshness of the random uuid relative to the
store and the reserved index keys); `forget_note`, however, deletes the
record and its secret but leaves the uuid in the `notes_ids` index, a
dangling id that the loaders tolerate by skipping. -/
theorem store_index_sync :
    (∀ (accs : List AccountRaw) (notes0 : List NoteRaw)
      (sled0 : List (Str × DBVal)) (p : List ℕ) (aliasName : Str)
      (note : Note) (uuid : Str) (nonce : List ℕ),
      StoreExact ⟨sled0, some p⟩ → notesIdsTyped ⟨sled0, some p⟩ →
      lookupKV sled0 uuid = none →
      lookupKV sled0 (uuid ++ "_secret".data) = none →
      uuid ≠ "notes_ids".data → uuid ≠ "account_ids".data →
      uuid ++ "_secret".data ≠ "notes_ids".data →
      uuid ++ "_secret".data ≠ "account_ids".data →
      StoreExact (ExecutionContext.importNote
        ⟨accs, notes0, ⟨sled0, some p⟩⟩ aliasName note uuid nonce).1.db) ∧
    (∀ (accs : List AccountRaw) (notes0 : List NoteRaw)
      (sled0 : List (Str × DBVal)) (p : List ℕ)
      (aliasName assetName : Str) (depositSize denomination chainId : ℕ)
      (secret : List ℕ) (uuid : Str) (nonce : List ℕ),
      StoreExact ⟨sled0, some p⟩ → notesIdsTyped ⟨sled0, some p⟩ →
      lookupKV sled0 uuid = none →
      lookupKV sled0 (uuid ++ "_secret".data) = none →
      uuid ≠ "notes_ids".data → uuid ≠ "account_ids".data →
      uuid ++ "_secret".data ≠ "notes_ids".data →
      uuid ++ "_secret".data ≠ "account_ids".data →
      StoreExact (ExecutionContext.generateNote
        ⟨accs, notes0, ⟨sled0, some p⟩⟩ aliasName assetName depositSize
        denomination chainId secret uuid nonce).1.db) ∧
    (∀ (accs : List AccountRaw) (notes0 : List NoteRaw)
      (sled0 : List (Str × DBVal)) (p : List ℕ)
      (aliasName uuid address : Str) (seed nonce : List ℕ),
      StoreExact ⟨sled0, some p⟩ → accountIdsTyped ⟨sled0, some p⟩ →
      lookupKV sled0 uuid = none →
      lookupKV sled0 (uuid ++ "_seed".data) = none →
      uuid ≠ "account_ids".data → uuid ≠ "notes_ids".data →
      uuid ++ "_seed".data ≠ "account_ids".data →
      uuid ++ "_seed".data ≠ "notes_ids".data →
      StoreExact (ExecutionContext.generateAccount
        ⟨accs, notes0, ⟨sled0, some p⟩⟩ aliasName uuid address seed
        nonce).1.db) ∧
    (∀ (accs : List AccountRaw) (notes0 : List NoteRaw)
      (sled0 : List (Str × DBVal)) (p : List ℕ)
      (aliasName uuid address : Str) (seed nonce : List ℕ),
      StoreExact ⟨sled0, some p⟩ → accountIdsTyped ⟨sled0, some p⟩ →
      lookupKV sled0 uuid = none →
      lookupKV sled0 (uuid ++ "_seed".data) = none →
      uuid ≠ "account_ids".data → uuid ≠ "notes_ids".data →
      uuid ++ "_seed".data ≠ "account_ids".data →
      uuid ++ "_seed".data ≠ "notes_ids".data →
      StoreExact (ExecutionContext.importAccount
        ⟨accs, notes0, ⟨sled0, some p⟩⟩ aliasName uuid address seed
        nonce).1.db) ∧
    (∀ (accs : List AccountRaw) (notes0 : List NoteRaw)
      (sled0 : List (Str × DBVal)) (sec : Option (List ℕ)) (uuid : Str),
      StoreExact ⟨sled0, sec⟩ →
      uuid ≠ "notes_ids".data → uuid ≠ "account_ids".data →
      StoreExact (ExecutionContext.markNoteAsUsed
        ⟨accs, notes0, ⟨sled0, sec⟩⟩ uuid).1.db) ∧
    (∀ (accs : List AccountRaw) (notes0 : List NoteRaw)
      (sled0 : List (Str × DBVal)) (sec : Option (List ℕ)) (uuid : Str),
      uuid ≠ "notes_ids".data →
      uuid ++ "_secret".data ≠ "notes_ids".data →
      noteIdsOf (ExecutionContext.forgetNote
        ⟨accs, notes0, ⟨sled0, sec⟩⟩ uuid).db = noteIdsOf ⟨sled0, sec⟩ ∧
      (ExecutionContext.forgetNote ⟨accs, notes0, ⟨sled0, sec⟩⟩
        uuid).db.readPlaintext uuid = none) := by
  refine ⟨?_, ?_, ?_, ?_, ?_, ?_⟩
  · intro accs notes0 sled0 p aliasName note uuid nonce hex hty hf1 hf2
      h1 h2 h3 h4
    exact (importNote_preserves accs notes0 sled0 p aliasName note uuid
      nonce hex hty hf1 hf2 h1 h2 h3 h4).1
  · intro accs notes0 sled0 p aliasName assetName depositSize denomination
      chainId secret uuid nonce hex hty hf1 hf2 h1 h2 h3 h4
    exact (importNote_preserves accs notes0 sled0 p aliasName
      { pfx := .mixer, version := .v1, targetChainId := chainId,
        sourceChainId := chainId, backend := .circom,
        hashFunction := .poseidon, curve := .bn254, exponentiation := 5,
        width := 5, secret := secret, tokenSymbol := assetName,
        amount := natToChars depositSize, denomination := denomination }
      uuid nonce hex hty hf1 hf2 h1 h2 h3 h4).1
  · intro accs notes0 sled0 p aliasName uuid address seed nonce hex hty
      hf1 hf2 h1 h2 h3 h4
    exact (generateAccount_preserves accs notes0 sled0 p aliasName uuid
      address seed nonce hex hty hf1 hf2 h1 h2 h3 h4).1
  · intro accs notes0 sled0 p aliasName uuid address seed nonce hex hty
      hf1 hf2 h1 h2 h3 h4
    exact (generateAccount_preserves accs notes0 sled0 p aliasName uuid
      address seed nonce hex hty hf1 hf2 h1 h2 h3 h4).1
  · intro accs notes0 sled0 sec uuid hex h1 h2
    exact (markNote_preserves accs notes0 sled0 sec uuid hex h1 h2).1
  · intro accs notes0 sled0 sec uuid h1 h2
    exact forgetNote_dangling accs notes0 sled0 sec uuid h1 h2

/-- C6 witness: the amended index-sync theorem applied at concrete
stores — a fresh import, a fresh account, a mark on an existing note, and
a forget that leaves the dangling id. -/
theorem store_index_sync_witness :
    StoreExact ((⟨[], [], ⟨[], some [1]⟩⟩ : ExecutionContext).importNote
      "a".data sampleNote "u1".data [7]).1.db ∧
    StoreExact ((⟨[], [], ⟨[], some [1]⟩⟩ : ExecutionContext).generateAccount
      "a".data "u2".data "addr".data [3] [7]).1.db ∧
    StoreExact ((⟨[], [], ⟨oneNoteSled, none⟩⟩ :
      ExecutionContext).markNoteAsUsed "u1".data).1.db ∧
    (noteIdsOf ((⟨[], [], ⟨oneNoteSled, none⟩⟩ :
        ExecutionContext).forgetNote "u1".data).db =
      noteIdsOf ⟨oneNoteSled, none⟩ ∧
      ((⟨[], [], ⟨oneNoteSled, none⟩⟩ : ExecutionContext).forgetNote
        "u1".data).db.readPlaintext "u1".data = none) :=
  ⟨store_index_sync.1 [] [] [] [1] "a".data sampleNote "u1".data [7]
      (by decide) (by decide) (by decide) (by decide) (by decide)
      (by decide) (by decide) (by decide),
   store_index_sync.2.2.1 [] [] [] [1] "a".data "u2".data "addr".data [3] [7]
      (by decide) (by decide) (by decide) (by decide) (by decide)
      (by decide) (by decide) (by decide),
   store_index_sync.2.2.2.2.1 [] [] oneNoteSled none "u1".data (by decide)
      (by decide) (by decide),
   store_index_sync.2.2.2.2.2 [] [] oneNoteSled none "u1".data (by decide)
      (by decide)⟩

/-- C6 counterexample: as literally stated the claim fails — after
`import_note` followed by `forget_note` on the same uuid, the uuid is
still listed in `notes_ids` while its record is gone, so the index does
not enumerate exactly the live records. -/
theorem forget_note_breaks_index_exactness :
    "u1".data ∈ noteIdsOf (((⟨[], [], ⟨[], some [1]⟩⟩ :
        ExecutionContext).importNote "a".data sampleNote "u1".data
        [7]).1.forgetNote "u1".data).db ∧
    (((⟨[], [], ⟨[], some [1]⟩⟩ : ExecutionContext).importNote "a".data
        sampleNote "u1".data [7]).1.forgetNote
        "u1".data).db.readPlaintext "u1".data = none ∧
    ¬ NotesExact (((⟨[], [], ⟨[], some [1]⟩⟩ :
        ExecutionContext).importNote "a".data sampleNote "u1".data
        [7]).1.forgetNote "u1".data).db := by
  refine ⟨by decide, by decide, by decide⟩
